import Mathlib

/-!
Verification of the Discord JSON chat-log formatter and searcher.

This file gives a shallow embedding of the core of the repository
(`parser.py` and `searcher.py`) and proves the frozen claims about it.

Modelling conventions:
* Python strings are Lean `String`s (sequences of Unicode scalar values,
  matching Python's code-point strings); string primitives (`strip`,
  `lower`, `splitlines`, slicing, ...) are re-implemented below with
  Python's semantics.  Lowercasing is modelled on the ASCII range.
* A JSON message record is modelled structurally: every field that the
  code reads is an `Option` of the value type the code expects; a missing
  field and a field of the wrong dynamic type both behave as "absent" in
  the code paths the claims exercise, and Python truthiness on strings is
  modelled explicitly (`strTruthy`).
* Compiled regular expressions are modelled by their denotations: the
  header pattern by `parse_header` (a direct denotation of
  `^\[(?P<ts>[^\]]+)\]\s+(?P<name>.+?)\s*$` including its backtracking
  behaviour), and the content matcher by the `Matcher` type whose search
  function is the denotation of the escaped-literal patterns built by
  `compile_contains_pattern`.
* Python's `list.sort` / `sorted` are stable; a stable sort for a total
  preorder is unique, so they are modelled by `List.insertionSort`.
-/

set_option maxHeartbeats 1600000

namespace DiscordLog

/-! ### Python string primitives -/

/-- Characters stripped by Python `str.strip()` (Unicode whitespace). -/
def pyIsSpace (c : Char) : Bool :=
  c = ' ' || c = '\t' || c = '\n' || c = '\r' || c = '\x0b' || c = '\x0c' ||
  c = '\x1c' || c = '\x1d' || c = '\x1e' || c = '\x1f' || c = '\x85' ||
  c = '\u00a0' || c = '\u1680' || ('\u2000' ≤ c && c ≤ '\u200a') ||
  c = '\u2028' || c = '\u2029' || c = '\u202f' || c = '\u205f' || c = '\u3000'

/-- Line-boundary characters of Python `str.splitlines` (with `\r\n`
treated as a single boundary where it occurs). -/
def isLineBreak (c : Char) : Bool :=
  c = '\n' || c = '\r' || c = '\x0b' || c = '\x0c' || c = '\x1c' ||
  c = '\x1d' || c = '\x1e' || c = '\x85' || c = '\u2028' || c = '\u2029'

def pyStripL (cs : List Char) : List Char :=
  ((cs.dropWhile pyIsSpace).reverse.dropWhile pyIsSpace).reverse

/-- Python `s.strip()`. -/
def pyStrip (s : String) : String := (pyStripL s.toList).asString

/-- Python `s.rstrip()`. -/
def pyRstrip (s : String) : String :=
  (s.toList.reverse.dropWhile pyIsSpace).reverse.asString

/-- Python `s.rstrip("\n")`. -/
def pyRstripNl (s : String) : String :=
  (s.toList.reverse.dropWhile (· = '\n')).reverse.asString

/-- Python `s.lstrip(".")`. -/
def pyLstripDots (s : String) : String :=
  (s.toList.dropWhile (· = '.')).asString

/-- Python `s.lower()` (modelled on the ASCII range). -/
def pyLower (s : String) : String := (s.toList.map Char.toLower).asString

/-- Python `s[n:]`. -/
def pyDrop (s : String) (n : Nat) : String := (s.toList.drop n).asString

/-- Python `s[:n]`. -/
def pyTake (s : String) (n : Nat) : String := (s.toList.take n).asString

/-- Python `s.startswith(pre)`. -/
def pyStartsWith (s pre : String) : Bool :=
  decide (s.toList.take pre.toList.length = pre.toList)

/-- Python `s.endswith(suf)`. -/
def pyEndsWith (s suf : String) : Bool :=
  decide (s.toList.reverse.take suf.toList.length = suf.toList.reverse)

/-- Python `c in s` for a single character. -/
def pyHasChar (s : String) (c : Char) : Bool := s.toList.contains c

/-- Python `needle in hay` (substring containment). -/
def containsSub (needle hay : String) : Bool :=
  (List.range (hay.toList.length + 1)).any
    (fun i => decide ((hay.toList.drop i).take needle.toList.length = needle.toList))

/-- Python `sep.join(xs)`. -/
def pyJoin (sep : String) : List String → String
  | [] => ""
  | [x] => x
  | x :: y :: rest => x ++ sep ++ pyJoin sep (y :: rest)

/-- Worker for Python `str.splitlines()` (boundaries removed).
A lone final boundary character ends the current line; a `\r`
immediately followed by `\n` is one boundary. -/
def slAux (acc : List Char) : List Char → List (List Char)
  | [] => if acc.isEmpty then [] else [acc.reverse]
  | [c] =>
    if c = '\r' then [acc.reverse]
    else if isLineBreak c then [acc.reverse]
    else slAux (c :: acc) []
  | c :: d :: rest2 =>
    if c = '\r' then
      if d = '\n' then acc.reverse :: slAux [] rest2
      else acc.reverse :: slAux [] (d :: rest2)
    else if isLineBreak c then acc.reverse :: slAux [] (d :: rest2)
    else slAux (c :: acc) (d :: rest2)

/-- Python `s.splitlines()`. -/
def pySplitlines (s : String) : List String := (slAux [] s.toList).map List.asString

/-- Worker for Python `str.splitlines(keepends=True)`. -/
def slkAux (acc : List Char) : List Char → List (List Char)
  | [] => if acc.isEmpty then [] else [acc.reverse]
  | [c] =>
    if c = '\r' then [acc.reverse ++ ['\r']]
    else if isLineBreak c then [acc.reverse ++ [c]]
    else slkAux (c :: acc) []
  | c :: d :: rest2 =>
    if c = '\r' then
      if d = '\n' then (acc.reverse ++ ['\r', '\n']) :: slkAux [] rest2
      else (acc.reverse ++ ['\r']) :: slkAux [] (d :: rest2)
    else if isLineBreak c then (acc.reverse ++ [c]) :: slkAux [] (d :: rest2)
    else slkAux (c :: acc) (d :: rest2)

/-- Python `s.splitlines(keepends=True)`. -/
def pySplitlinesKeepends (s : String) : List String :=
  (slkAux [] s.toList).map List.asString

/-! ### parser.py: the Record Formatter -/

/-- The 40-dash block divider (`DIVIDER = "-" * 40`). -/
def DIVIDER : String := (List.replicate 40 '-').asString

/-- Python truthiness of an optional string: a present, non-empty string. -/
def strTruthy : Option String → Option String
  | some s => if s = "" then none else some s
  | none => none

/-- Model of a JSON author object (fields read by the code). -/
structure AuthorRec where
  global_name : Option String
  username : Option String
deriving DecidableEq, Repr

/-- Model of one entry of a JSON record's `attachments` array.
Entries that are not JSON objects are skipped by the code and are
modelled as an entry with both fields absent. -/
structure AttRec where
  filename : Option String
  proxy_url : Option String
deriving DecidableEq, Repr

/-- Model of one JSON message record (fields read by the code).
`none` models a missing field or one of the wrong dynamic type. -/
structure MsgRecord where
  timestamp : Option String
  author : Option AuthorRec
  content : Option String
  attachments : Option (List AttRec)
deriving DecidableEq, Repr

/-- `ENABLE_NAME_REPLACEMENTS` toggle from parser.py. -/
def ENABLE_NAME_REPLACEMENTS : Bool := true

/-- `NAME_REPLACEMENTS` exact-match substitution table from parser.py. -/
def NAME_REPLACEMENTS (name : String) : Option String :=
  if name = "𓄧" then some "wnki" else none

/-- parser.py `normalize_name`. -/
def normalize_name (name : String) : String :=
  if !ENABLE_NAME_REPLACEMENTS then name
  else (NAME_REPLACEMENTS name).getD name

/-- parser.py `get_global_name`:
`author.get("global_name") or author.get("username") or "Unknown"`,
normalized. -/
def get_global_name (msg : MsgRecord) : String :=
  let author := msg.author.getD ⟨none, none⟩
  let name := ((strTruthy author.global_name).orElse
    (fun _ => strTruthy author.username)).getD "Unknown"
  normalize_name name

/-- parser.py `norm_text`: `None` unless a string whose strip is non-empty. -/
def norm_text (value : Option String) : Option String :=
  match value with
  | none => none
  | some s =>
    let t := pyStrip s
    if t = "" then none else some t

/-- parser.py `extract_attachments`: keep `(filename, proxy_url)` pairs
where both are present and truthy. -/
def extract_attachments (msg : MsgRecord) : List (String × String) :=
  match msg.attachments with
  | none => []
  | some atts =>
    atts.filterMap fun att =>
      match strTruthy att.filename, strTruthy att.proxy_url with
      | some f, some p => some (f, p)
      | _, _ => none

/-- The list `lines` built by parser.py `format_message` before the
divider is appended. -/
def format_lines (msg : MsgRecord) : List String :=
  let timestamp := (strTruthy msg.timestamp).getD "NO_TIMESTAMP"
  let name := get_global_name msg
  let content := norm_text msg.content
  ["[" ++ timestamp ++ "] " ++ name]
    ++ (match content with | some c => [c] | none => [])
    ++ ((extract_attachments msg).map
          (fun fp => ["Attachment: " ++ fp.1, "Proxy: " ++ fp.2])).flatten

/-- parser.py `format_message`: the block text, ending in the divider. -/
def format_message (msg : MsgRecord) : String :=
  pyJoin "\n" (format_lines msg ++ [DIVIDER])

/-- The sort key of parser.py `sort_messages_chronological`. -/
def sortKey (m : MsgRecord) : Nat × String :=
  match m.timestamp with
  | some ts => if ts ≠ "" then (0, ts) else (1, "9999-99-99T99:99:99.999999+99:99")
  | none => (1, "9999-99-99T99:99:99.999999+99:99")

/-- Comparison of sort keys: lexicographic on (tag, timestamp-string).
Python compares strings lexicographically by code point, which is the
lexicographic order on the strings' character lists (the same relation
as Mathlib's `String.LE`, whose decision procedure however does not
reduce in the kernel, so the character lists are compared directly). -/
def keyLe (p q : Nat × String) : Prop :=
  p.1 < q.1 ∨ (p.1 = q.1 ∧ p.2.toList ≤ q.2.toList)

instance : DecidableRel keyLe := fun p q => by
  unfold keyLe; infer_instance

/-- The record ordering used by the pre-format sort. -/
def recLe (a b : MsgRecord) : Prop := keyLe (sortKey a) (sortKey b)

instance : DecidableRel recLe := fun a b => by
  unfold recLe; infer_instance

/-- parser.py `sort_messages_chronological`: Python `list.sort(key=...)`
is a stable sort; a stable sort for a total preorder is unique, so it is
modelled by insertion sort.  (The code first drops non-dict entries of
the JSON array; the input here is the list of record entries.) -/
def sort_messages_chronological (data : List MsgRecord) : List MsgRecord :=
  List.insertionSort recLe data

/-! ### searcher.py: data model -/

/-- searcher.py `MAX_LINES_LISTED_PER_FILE`. -/
def MAX_LINES_LISTED_PER_FILE : Nat := 20

/-- searcher.py `Attachment`. -/
structure Attachment where
  filename : String
  ext : String
  proxy_url : String
deriving DecidableEq, Repr

/-- searcher.py `Message`. -/
structure Message where
  timestamp : String
  date : String
  name : String
  content : Option String
  attachments : List Attachment
  raw_block : String
  source_file : String
  start_line : Nat
deriving DecidableEq, Repr

/-! ### searcher.py: the Message Parser -/

/-- Denotation of searcher.py `parse_header`, i.e. of
`re.match(r"^\[(?P<ts>[^\]]+)\]\s+(?P<name>.+?)\s*$", line)`:
the timestamp group is the non-empty run of non-`]` characters after the
leading `[`; after the closing `]` the engine needs at least one
whitespace character, then the lazily-matched name group is the
remaining text with surrounding whitespace stripped; when that remainder
is whitespace only, backtracking makes the name group the single
(non-newline, since `.` cannot match a newline) whitespace character at
the greatest index ≥ 1 of the remainder.  `.` cannot match `\n`, so a
remainder whose stripped core contains `\n` does not match. -/
def parse_header (line : String) : Option (String × String) :=
  match line.toList with
  | [] => none
  | c0 :: rest =>
    if c0 = '[' then
      let ts := rest.takeWhile (fun c => c ≠ ']')
      match rest.dropWhile (fun c => c ≠ ']') with
      | [] => none
      | _ :: tail =>
        -- the dropped-to head is the first character failing `≠ ']'`,
        -- i.e. the closing bracket itself
        if ts.isEmpty then none
        else
          match tail with
          | [] => none
          | c :: _ =>
            if !pyIsSpace c then none
            else
              let core := pyStripL tail
              if core.isEmpty then
                match (tail.drop 1).reverse.find? (fun d => d ≠ '\n') with
                | some d => some (ts.asString, String.mk [d])
                | none => none
              else if core.contains '\n' then none
              else some (ts.asString, core.asString)
    else none

/-- searcher.py `derive_date_from_timestamp`. -/
def derive_date_from_timestamp (ts : String) : String :=
  if 10 ≤ ts.toList.length ∧ ts.toList.getD 4 ' ' = '-' ∧ ts.toList.getD 7 ' ' = '-' then
    pyTake ts 10
  else "NO_DATE"

/-- searcher.py `parse_block`, lines 77-78: the extension is the
lower-cased suffix after the last `.`, or empty when there is no dot. -/
def mkAttachment (filename proxy_url : String) : Attachment :=
  let ext :=
    if pyHasChar filename '.' then
      pyLower (filename.toList.reverse.takeWhile (fun c => c ≠ '.')).reverse.asString
    else ""
  { filename := filename, ext := ext, proxy_url := proxy_url }

/-- The body-scanning loop of searcher.py `parse_block` (lines 63-88):
returns the accumulated content lines and the attachments, in order.
An `Attachment:` line followed by a `Proxy:` line consumes both (the
single-line case covers `i + 1 >= len(block_lines)`). -/
def parseBody : List String → List String × List Attachment
  | [] => ([], [])
  | [l0] =>
    let line := pyRstripNl l0
    if pyStartsWith line "Attachment:" then
      ([], [mkAttachment (pyStrip (pyDrop line 11)) ""])
    else if pyStartsWith line "Proxy:" then ([], [])
    else if pyStrip line ≠ "" then ([line], [])
    else ([], [])
  | l0 :: nxt0 :: rest2 =>
    let line := pyRstripNl l0
    if pyStartsWith line "Attachment:" then
      let filename := pyStrip (pyDrop line 11)
      let nxt := pyRstripNl nxt0
      if pyStartsWith nxt "Proxy:" then
        let proxy_url := pyStrip (pyDrop nxt 6)
        let r := parseBody rest2
        (r.1, mkAttachment filename proxy_url :: r.2)
      else
        let r := parseBody (nxt0 :: rest2)
        (r.1, mkAttachment filename "" :: r.2)
    else if pyStartsWith line "Proxy:" then parseBody (nxt0 :: rest2)
    else if pyStrip line ≠ "" then
      let r := parseBody (nxt0 :: rest2)
      (line :: r.1, r.2)
    else parseBody (nxt0 :: rest2)

/-- The trailing-blank-line popping loop at the top of `parse_block`. -/
def popTrailingBlanks (bl : List String) : List String :=
  (bl.reverse.dropWhile (fun l => pyStrip l = "")).reverse

/-- searcher.py `parse_block`. -/
def parse_block (block_lines : List String) (source_file : String)
    (start_line : Nat) : Option Message :=
  let bl := popTrailingBlanks block_lines
  match bl with
  | [] => none
  | first :: body =>
    match parse_header first with
    | none => none
    | some (ts, name) =>
      if ts = "" ∨ name = "" then none
      else
        let date := derive_date_from_timestamp ts
        let r := parseBody body
        let content0 :=
          if r.1.isEmpty then none else some (pyStrip (pyJoin "\n" r.1))
        let content := if content0 = some "" then none else content0
        let raw_block := pyRstrip (pyJoin "\n" bl) ++ "\n" ++ DIVIDER ++ "\n"
        some { timestamp := ts, date := date, name := name, content := content,
               attachments := r.2, raw_block := raw_block,
               source_file := source_file, start_line := start_line }

/-! ### searcher.py: the Block Tokenizer -/

/-- searcher.py `parse_file_into_messages.flush_block`: the messages the
flush appends (none when the candidate is empty or never saw a
non-blank line, or when `parse_block` rejects it). -/
def flushB (src : String) (cur : List String) (curStart : Option Nat) : List Message :=
  match curStart with
  | some k => if cur.isEmpty then [] else (parse_block cur src k).toList
  | none => []

/-- The line loop of searcher.py `parse_file_into_messages`, with the
running 1-based line index, current candidate block and its recorded
start line as explicit state. -/
def tokLoop (src : String) (idx : Nat) (cur : List String) (curStart : Option Nat) :
    List String → List Message
  | [] => flushB src cur curStart
  | l :: ls =>
    if pyStrip l = DIVIDER then
      flushB src cur curStart ++ tokLoop src (idx + 1) [] none ls
    else
      let curStart2 :=
        if curStart = none ∧ pyStrip l ≠ "" then some idx else curStart
      tokLoop src (idx + 1) (cur ++ [l]) curStart2 ls

/-- searcher.py `parse_file_into_messages`, applied to the already-read
file text. -/
def parse_file_into_messages (src : String) (text : String) : List Message :=
  tokLoop src 1 [] none (pySplitlines text)

/-! ### searcher.py: the Filter Compiler -/

/-- Denotation of the compiled content pattern of
`compile_contains_pattern`: either the exact-token pattern
`(?<!\w)escaped(?!\w)` or the plain escaped-literal substring pattern,
both with `re.IGNORECASE`. -/
inductive Matcher where
  | exactToken (tok : String)
  | substring (s : String)
deriving DecidableEq, Repr

/-- Word characters of the regex lookarounds `(?<!\w)` / `(?!\w)`
(alphanumeric or underscore; modelled on the ASCII range). -/
def pyIsWordChar (c : Char) : Bool := c.isAlphanum || c = '_'

/-- The escaped token matches at position `i` of `hay` (case-insensitive
literal match) with no word character immediately before or after. -/
def tokenMatchAt (tok hay : List Char) (i : Nat) : Bool :=
  decide (((hay.drop i).take tok.length).map Char.toLower = tok.map Char.toLower) &&
  decide (i + tok.length ≤ hay.length) &&
  (decide (i = 0) || !pyIsWordChar (hay.getD (i - 1) ' ')) &&
  (decide (i + tok.length = hay.length) || !pyIsWordChar (hay.getD (i + tok.length) ' '))

/-- `pattern.search(hay)` truthiness for the two compiled patterns. -/
def matcherSearch : Matcher → String → Bool
  | .exactToken tok, hay =>
    (List.range (hay.toList.length + 1)).any (tokenMatchAt tok.toList hay.toList)
  | .substring s, hay => containsSub (pyLower s) (pyLower hay)

/-- searcher.py `compile_contains_pattern`: returns the raw input and
the denotation of the compiled pattern. -/
def compile_contains_pattern (user_input : String) : String × Matcher :=
  let s := pyStrip user_input
  if 2 ≤ s.toList.length ∧ s.toList.getD 0 ' ' = '"' ∧ s.toList.getLastD ' ' = '"' then
    (user_input, Matcher.exactToken (pyTake (pyDrop s 1) (s.toList.length - 2)))
  else
    (user_input, Matcher.substring s)

/-- The filter dictionary built in searcher.py `main` (the
`contains_raw` entry is only used for display and is omitted). -/
structure Filters where
  date : Option String
  name : Option String
  contains_pat : Option Matcher
  exclude : Option String
  has_attachment : Option Bool
  attachment_ext : Option String
deriving DecidableEq, Repr

/-- searcher.py `matches_filters`. -/
def matches_filters (msg : Message) (filters : Filters) : Bool :=
  if (match filters.date with
      | some d => decide (msg.date ≠ d)
      | none => false) then false
  else if (match filters.name with
      | some n => decide (pyLower msg.name ≠ pyLower n)
      | none => false) then false
  else
    let hay := msg.content.getD ""
    if (match filters.contains_pat with
        | some p => !matcherSearch p hay
        | none => false) then false
    else if (match filters.exclude with
        | some e => containsSub (pyLower e) (pyLower hay)
        | none => false) then false
    else
      let has_att := decide (0 < msg.attachments.length)
      if (match filters.has_attachment with
          | some b => has_att != b
          | none => false) then false
      else
        match filters.attachment_ext with
        | some e =>
          if !has_att then false
          else
            let want := pyLstripDots (pyLower e)
            if !(msg.attachments.any (fun a => a.ext = want)) then false
            else true
        | none => true

/-! ### searcher.py: the Report Builder -/

/-- One `by_file.setdefault(...).append(...)` step of
`build_file_summary`, on an insertion-ordered association list (Python
dicts preserve insertion order). -/
def assocAppend : List (String × List Nat) → String → Nat → List (String × List Nat)
  | [], s, n => [(s, [n])]
  | (k, v) :: rest, s, n =>
    if k = s then (k, v ++ [n]) :: rest
    else (k, v) :: assocAppend rest s n

/-- The `by_file` grouping dictionary of `build_file_summary`:
file name → start lines of its matches, in match order. -/
def by_file (matched : List Message) : List (String × List Nat) :=
  matched.foldl (fun acc m => assocAppend acc m.source_file m.start_line) []

/-- The group ordering of `build_file_summary`:
`sorted(..., key=lambda kv: (-len(kv[1]), kv[0].lower()))`, with Python
string comparison modelled as the lexicographic order on character
lists (see `keyLe`). -/
def groupLe (a b : String × List Nat) : Prop :=
  b.2.length < a.2.length ∨
    (a.2.length = b.2.length ∧ (pyLower a.1).toList ≤ (pyLower b.1).toList)

instance : DecidableRel groupLe := fun a b => by
  unfold groupLe; infer_instance

/-- The `items` list of `build_file_summary` (Python `sorted` is stable;
a stable sort for a total preorder is unique). -/
def summaryItems (matched : List Message) : List (String × List Nat) :=
  List.insertionSort groupLe (by_file matched)

/-- Python `sorted` on the start-line numbers of one group. -/
def sortNat (nums : List Nat) : List Nat := List.insertionSort (· ≤ ·) nums

/-- Python `", ".join(str(n) for n in nums)`. -/
def renderNums (nums : List Nat) : String := pyJoin ", " (nums.map toString)

/-- The summary line `build_file_summary` emits for one group. -/
def summaryLine (fname : String) (nums : List Nat) : String :=
  let line_nums_sorted := sortNat nums
  let count := line_nums_sorted.length
  if count ≤ MAX_LINES_LISTED_PER_FILE then
    "Found " ++ toString count ++ " entries in " ++ fname ++ " on lines " ++
      renderNums line_nums_sorted
  else
    let shown := line_nums_sorted.take MAX_LINES_LISTED_PER_FILE
    let remaining := count - MAX_LINES_LISTED_PER_FILE
    "Found " ++ toString count ++ " entries in " ++ fname ++ " on lines " ++
      renderNums shown ++ ", ... (+" ++ toString remaining ++ " more)"

/-- searcher.py `build_file_summary`. -/
def build_file_summary (matched : List Message) : String :=
  if (by_file matched).isEmpty then
    pyJoin "\n" ["Per-file summary:", "(No matches.)"] ++ "\n"
  else
    pyJoin "\n" ("Per-file summary:" ::
      (summaryItems matched).map (fun kv => summaryLine kv.1 kv.2)) ++ "\n"

/-- searcher.py `strip_trailing_divider`. -/
def strip_trailing_divider (raw_block : String) : String :=
  let lines := pySplitlinesKeepends raw_block
  let lines := (lines.reverse.dropWhile (fun l => pyStrip l = "")).reverse
  let lines :=
    if !lines.isEmpty ∧ pyStrip (lines.getLastD "") = DIVIDER then lines.dropLast
    else lines
  let out := String.join lines
  if out ≠ "" ∧ pyEndsWith out "\n" = false then out ++ "\n" else out

/-- The `last_index_for_file` dictionary of
`compute_total_chars_for_output` / `write_matched_grouped_by_file`:
every file name is mapped to the index of its last occurrence. -/
def last_index_for_file (matched : List Message) : String → Option Nat :=
  matched.enum.foldl
    (fun d p => fun s => if s = p.2.source_file then some p.1 else d s)
    (fun _ => none)

/-- The block text selected for the match at index `i`: the raw block,
with the trailing divider stripped when this is the last match of its
file group in the whole sequence. -/
def selectedBlock (lif : String → Option Nat) (i : Nat) (m : Message) : String :=
  if lif m.source_file = some i then strip_trailing_divider m.raw_block
  else m.raw_block

/-- searcher.py `compute_total_chars_for_output`. -/
def compute_total_chars_for_output (matched : List Message) : Nat :=
  if matched.isEmpty then 0
  else
    let lif := last_index_for_file matched
    matched.enum.foldl
      (fun total p => total + (selectedBlock lif p.1 p.2).length + 1) 0

/-- The text `write_matched_grouped_by_file` writes for the match at
index `i`, banners aside: the selected block, a forced newline when the
block does not end in one, and the blank-line separator. -/
def blockOut (lif : String → Option Nat) (i : Nat) (m : Message) : String :=
  let block := selectedBlock lif i m
  block ++ (if pyEndsWith block "\n" then "" else "\n") ++ "\n"

/-- The per-block text of the report body, file-header banners
excluded: concatenation of `blockOut` over the matched sequence. -/
def bodyText (matched : List Message) : String :=
  let lif := last_index_for_file matched
  String.join (matched.enum.map (fun p => blockOut lif p.1 p.2))

/-- The 60-character `=` banner line. -/
def EQBANNER : String := (List.replicate 60 '=').asString

/-- The file-header banner written when the source file changes. -/
def fileBanner (fname : String) : String :=
  EQBANNER ++ "\n" ++ fname ++ "\n" ++ EQBANNER ++ "\n" ++ "\n"

/-- The loop of searcher.py `write_matched_grouped_by_file`, with the
`current_file` state explicit; returns the text written. -/
def writeLoop (lif : String → Option Nat) :
    Option String → List (Nat × Message) → String
  | _, [] => ""
  | cur, (i, m) :: rest =>
    (if cur ≠ some m.source_file then fileBanner m.source_file else "")
      ++ blockOut lif i m
      ++ writeLoop lif (some m.source_file) rest

/-- searcher.py `write_matched_grouped_by_file`: the text written to the
report file for the matched sequence. -/
def write_matched_grouped_by_file (matched : List Message) : String :=
  if matched.isEmpty then ""
  else writeLoop (last_index_for_file matched) none matched.enum

/-! ### Helper lemmas -/

theorem headD_of_prefix {xs ys : List String} (h : xs <+: ys) (hne : xs ≠ []) (d : String) :
    xs.headD d = ys.headD d := by
  obtain ⟨t, rfl⟩ := h
  cases xs with
  | nil => exact absurd rfl hne
  | cons a l => rfl

theorem popTrailingBlanks_prefix (bl : List String) : popTrailingBlanks bl <+: bl := by
  unfold popTrailingBlanks
  have h : bl.reverse.dropWhile (fun l => decide (pyStrip l = "")) <:+ bl.reverse :=
    List.dropWhile_suffix _
  have h2 := List.reverse_prefix.mpr h
  simpa using h2

/-! ### String and splitlines lemmas -/

theorem toList_append (a b : String) : (a ++ b).toList = a.toList ++ b.toList := rfl

theorem toList_asString (l : List Char) : l.asString.toList = l := rfl

theorem string_eq_of_toList {s t : String} (h : s.toList = t.toList) : s = t := by
  cases s
  cases t
  simp only [String.toList] at h
  rw [h]

theorem slkAux_nil_acc (acc : List Char) :
    slkAux acc [] = if acc.isEmpty then [] else [acc.reverse] := rfl

theorem slkAux_cons_nobreak (acc ys : List Char) (c : Char) (hc : isLineBreak c = false) :
    slkAux acc (c :: ys) = slkAux (c :: acc) ys := by
  have hcr : c ≠ '\r' := fun h => by subst h; exact absurd hc (by decide)
  cases ys with
  | nil => simp only [slkAux, if_neg hcr, hc]; simp
  | cons d rest => simp only [slkAux, if_neg hcr, hc]; simp

theorem slkAux_cons_break (acc ys : List Char) (c : Char)
    (hcr : c ≠ '\r') (hb : isLineBreak c = true) :
    slkAux acc (c :: ys) = (acc.reverse ++ [c]) :: slkAux [] ys := by
  cases ys with
  | nil => simp only [slkAux, if_neg hcr, hb]; simp
  | cons d rest => simp only [slkAux, if_neg hcr, hb]; simp

theorem slkAux_cons_nl (acc ys : List Char) :
    slkAux acc ('\n' :: ys) = (acc.reverse ++ ['\n']) :: slkAux [] ys :=
  slkAux_cons_break acc ys '\n' (by decide) (by decide)

theorem slkAux_crlf (acc ys : List Char) :
    slkAux acc ('\r' :: '\n' :: ys) = (acc.reverse ++ ['\r', '\n']) :: slkAux [] ys := by
  simp only [slkAux]
  simp

theorem slkAux_cr_not_nl (acc ys : List Char) (d : Char) (hd : d ≠ '\n') :
    slkAux acc ('\r' :: d :: ys) = (acc.reverse ++ ['\r']) :: slkAux [] (d :: ys) := by
  simp only [slkAux]
  simp [hd]

theorem slkAux_cr_end (acc : List Char) : slkAux acc ['\r'] = [acc.reverse ++ ['\r']] := by
  simp only [slkAux]
  simp

/-- The keepends split is a partition: joining the segments restores
the input. -/
theorem slkAux_join : ∀ (n : Nat) (cs : List Char), cs.length ≤ n → ∀ (acc : List Char),
    (slkAux acc cs).flatten = acc.reverse ++ cs := by
  intro n
  induction n with
  | zero =>
    intro cs hlen acc
    obtain rfl : cs = [] := List.eq_nil_of_length_eq_zero (Nat.le_zero.mp hlen)
    rw [slkAux_nil_acc]
    by_cases ha : acc.isEmpty
    · rw [if_pos ha]
      simp [List.isEmpty_iff.mp ha]
    · rw [if_neg ha]
      simp
  | succ n ih =>
    intro cs hlen acc
    cases cs with
    | nil =>
      rw [slkAux_nil_acc]
      by_cases ha : acc.isEmpty
      · rw [if_pos ha]
        simp [List.isEmpty_iff.mp ha]
      · rw [if_neg ha]
        simp
    | cons c rest =>
      simp only [List.length_cons] at hlen
      by_cases hcr : c = '\r'
      · subst hcr
        cases rest with
        | nil =>
          rw [slkAux_cr_end]
          simp
        | cons d rest2 =>
          simp only [List.length_cons] at hlen
          by_cases hd : d = '\n'
          · subst hd
            rw [slkAux_crlf]
            simp only [List.flatten_cons]
            rw [ih rest2 (by omega) []]
            simp
          · rw [slkAux_cr_not_nl _ _ _ hd]
            simp only [List.flatten_cons]
            rw [ih (d :: rest2) (by simp [List.length_cons]; omega) []]
            simp
      · by_cases hb : isLineBreak c
        · rw [slkAux_cons_break _ _ _ hcr hb]
          simp only [List.flatten_cons]
          rw [ih rest (by omega) []]
          simp
        · rw [slkAux_cons_nobreak _ _ _ (by simpa using hb)]
          rw [ih rest (by omega) (c :: acc)]
          simp

/-- Splitting at an explicit `\n` boundary (the preceding text must not
end in `\r`, which would merge with the `\n` into one boundary). -/
theorem slkAux_split : ∀ (n : Nat) (xs : List Char), xs.length ≤ n →
    xs.getLast? ≠ some '\r' → ∀ (acc ys : List Char),
    slkAux acc (xs ++ '\n' :: ys) = slkAux acc (xs ++ ['\n']) ++ slkAux [] ys := by
  intro n
  induction n with
  | zero =>
    intro xs hlen _ acc ys
    obtain rfl : xs = [] := List.eq_nil_of_length_eq_zero (Nat.le_zero.mp hlen)
    simp only [List.nil_append]
    rw [slkAux_cons_nl, slkAux_cons_nl, slkAux_nil_acc]
    simp
  | succ n ih =>
    intro xs hlen hlast acc ys
    cases xs with
    | nil =>
      simp only [List.nil_append]
      rw [slkAux_cons_nl, slkAux_cons_nl, slkAux_nil_acc]
      simp
    | cons c xs2 =>
      simp only [List.length_cons] at hlen
      by_cases hcr : c = '\r'
      · subst hcr
        cases xs2 with
        | nil => exact absurd (by simp) hlast
        | cons d xs3 =>
          simp only [List.length_cons] at hlen
          have hlast2 : (d :: xs3).getLast? ≠ some '\r' := by
            rwa [List.getLast?_cons_cons] at hlast
          by_cases hd : d = '\n'
          · subst hd
            simp only [List.cons_append]
            rw [slkAux_crlf, slkAux_crlf]
            have hlast3 : xs3.getLast? ≠ some '\r' := by
              cases xs3 with
              | nil => simp
              | cons e es => rwa [List.getLast?_cons_cons] at hlast2
            rw [ih xs3 (by omega) hlast3 [] ys]
            simp
          · simp only [List.cons_append]
            rw [slkAux_cr_not_nl _ _ _ hd, slkAux_cr_not_nl _ _ _ hd]
            rw [show d :: (xs3 ++ '\n' :: ys) = (d :: xs3) ++ '\n' :: ys from rfl,
                show d :: (xs3 ++ ['\n']) = (d :: xs3) ++ ['\n'] from rfl,
                ih (d :: xs3) (by simp [List.length_cons]; omega) hlast2 [] ys]
            simp
      · have hlast2 : xs2 = [] ∨ xs2.getLast? ≠ some '\r' := by
          cases xs2 with
          | nil => exact Or.inl rfl
          | cons e es => exact Or.inr (by rwa [List.getLast?_cons_cons] at hlast)
        by_cases hb : isLineBreak c
        · simp only [List.cons_append]
          rw [slkAux_cons_break _ _ _ hcr hb, slkAux_cons_break _ _ _ hcr hb]
          rcases hlast2 with rfl | hlast2
          · simp only [List.nil_append]
            rw [slkAux_cons_nl, slkAux_cons_nl, slkAux_nil_acc]
            simp
          · rw [ih xs2 (by omega) hlast2 [] ys]
            simp
        · simp only [List.cons_append]
          rw [slkAux_cons_nobreak _ _ _ (by simpa using hb),
              slkAux_cons_nobreak _ _ _ (by simpa using hb)]
          rcases hlast2 with rfl | hlast2
          · simp only [List.nil_append]
            rw [slkAux_cons_nl, slkAux_cons_nl, slkAux_nil_acc]
            simp
          · exact ih xs2 (by omega) hlast2 (c :: acc) ys

/-- A break-free segment followed by a newline is a single kept line. -/
theorem slkAux_nobreak_nl : ∀ (ds : List Char), (∀ c ∈ ds, isLineBreak c = false) →
    ∀ acc, slkAux acc (ds ++ ['\n']) = [acc.reverse ++ ds ++ ['\n']] := by
  intro ds
  induction ds with
  | nil =>
    intro _ acc
    rw [List.nil_append, slkAux_cons_nl, slkAux_nil_acc]
    simp
  | cons d ds ih =>
    intro h acc
    have hd : isLineBreak d = false := h d (List.mem_cons_self _ _)
    rw [List.cons_append, slkAux_cons_nobreak _ _ _ hd,
        ih (fun c hc => h c (List.mem_cons_of_mem _ hc)) (d :: acc)]
    simp

theorem string_foldl_append_toList : ∀ (xs : List String) (s : String),
    (xs.foldl (fun r t => r ++ t) s).toList = s.toList ++ (xs.map String.toList).flatten := by
  intro xs
  induction xs with
  | nil => intro s; simp
  | cons x xs ih =>
    intro s
    rw [List.foldl_cons, ih]
    simp [toList_append, List.append_assoc]

theorem string_join_toList (xs : List String) :
    (String.join xs).toList = (xs.map String.toList).flatten := by
  have h := string_foldl_append_toList xs ""
  simpa [String.join] using h

theorem pyEndsWith_append_nl (x : String) : pyEndsWith (x ++ "\n") "\n" = true := by
  simp [pyEndsWith, toList_append, List.reverse_append]

theorem pyEndsWith_nl_getLast (t : String) :
    pyEndsWith t "\n" = true ↔ t.toList.getLast? = some '\n' := by
  simp only [pyEndsWith, decide_eq_true_eq]
  rw [← List.head?_reverse]
  cases h : t.toList.reverse with
  | nil => simp
  | cons c cr => simp [List.take]

theorem head_dropWhile_false {α : Type} (p : α → Bool) (l : List α) (c : α)
    (h : (l.dropWhile p).head? = some c) : p c = false := by
  induction l with
  | nil => simp [List.dropWhile] at h
  | cons a l ih =>
    rw [List.dropWhile_cons] at h
    by_cases ha : p a
    · rw [if_pos ha] at h
      exact ih h
    · rw [if_neg ha] at h
      simp only [List.head?_cons, Option.some.injEq] at h
      subst h
      exact Bool.not_eq_true _ ▸ (by simpa using ha)

theorem pyRstrip_ne_empty_of_mem {s : String} {c : Char}
    (hc : c ∈ s.toList) (hcs : pyIsSpace c = false) : pyRstrip s ≠ "" := by
  unfold pyRstrip
  intro he
  have h0 : (s.toList.reverse.dropWhile pyIsSpace).reverse = ([] : List Char) := by
    have h1 := congrArg String.toList he
    rw [toList_asString] at h1
    simpa using h1
  have h1 : s.toList.reverse.dropWhile pyIsSpace = [] := by
    simpa using congrArg List.reverse h0
  rw [List.dropWhile_eq_nil_iff] at h1
  have h2 := h1 c (List.mem_reverse.mpr hc)
  rw [hcs] at h2
  exact Bool.false_ne_true h2

theorem pyRstrip_getLast_not_space (s : String) (c : Char)
    (hc : (pyRstrip s).toList.getLast? = some c) : pyIsSpace c = false := by
  unfold pyRstrip at hc
  rw [toList_asString] at hc
  rw [← List.head?_reverse, List.reverse_reverse] at hc
  exact head_dropWhile_false _ _ _ hc

theorem divider_no_breaks : ∀ c ∈ DIVIDER.toList, isLineBreak c = false := by
  intro c hc
  have hrep : c ∈ List.replicate 40 '-' := hc
  have : c = '-' := (List.eq_of_mem_replicate hrep)
  subst this
  decide

/-- `strip_trailing_divider` on a block of the exact shape produced by
the parser — non-empty text not ending in `\r`, newline, divider,
newline — removes the divider line and nothing else. -/
theorem strip_trailing_divider_shape (s : String)
    (hlast : s.toList.getLast? ≠ some '\r') :
    strip_trailing_divider (s ++ "\n" ++ DIVIDER ++ "\n") = s ++ "\n" := by
  have htl : (s ++ "\n" ++ DIVIDER ++ "\n").toList
      = s.toList ++ '\n' :: (DIVIDER.toList ++ ['\n']) := by
    simp [toList_append]
  have hdivline : (DIVIDER.toList ++ ['\n']).asString = DIVIDER ++ "\n" := rfl
  have hsl : pySplitlinesKeepends (s ++ "\n" ++ DIVIDER ++ "\n")
      = (slkAux [] (s.toList ++ ['\n'])).map List.asString ++ [DIVIDER ++ "\n"] := by
    unfold pySplitlinesKeepends
    rw [htl, slkAux_split s.toList.length s.toList (le_refl _) hlast [] _,
        slkAux_nobreak_nl DIVIDER.toList divider_no_breaks [], List.map_append]
    congr 1
  have hdivblank : (decide (pyStrip (DIVIDER ++ "\n") = "")) = false := by decide
  have hpop :
      (((((slkAux [] (s.toList ++ ['\n'])).map List.asString) ++ [DIVIDER ++ "\n"]).reverse.dropWhile
          (fun l => pyStrip l = "")).reverse)
        = ((slkAux [] (s.toList ++ ['\n'])).map List.asString) ++ [DIVIDER ++ "\n"] := by
    rw [List.reverse_append]
    simp only [List.reverse_cons, List.reverse_nil, List.nil_append, List.singleton_append,
      List.dropWhile_cons, hdivblank]
    simp
  have hout : String.join ((slkAux [] (s.toList ++ ['\n'])).map List.asString) = s ++ "\n" := by
    apply string_eq_of_toList
    rw [string_join_toList, List.map_map]
    have hmap : (slkAux [] (s.toList ++ ['\n'])).map (String.toList ∘ List.asString)
        = slkAux [] (s.toList ++ ['\n']) :=
      (List.map_congr_left (fun l _ => toList_asString l)).trans
        (List.map_id _)
    rw [hmap, slkAux_join (s.toList ++ ['\n']).length _ (le_refl _) []]
    simp [toList_append]
  have hcond : ((!(((slkAux [] (s.toList ++ ['\n'])).map List.asString) ++
        [DIVIDER ++ "\n"]).isEmpty) = true ∧
      pyStrip ((((slkAux [] (s.toList ++ ['\n'])).map List.asString) ++
        [DIVIDER ++ "\n"]).getLastD "") = DIVIDER) := by
    constructor
    · simp
    · rw [List.getLastD_concat]
      decide
  have hfinal : ¬ ((s ++ "\n" ≠ "") ∧ pyEndsWith (s ++ "\n") "\n" = false) := by
    rintro ⟨-, hend⟩
    rw [pyEndsWith_append_nl] at hend
    exact absurd hend (by decide)
  unfold strip_trailing_divider
  rw [hsl]
  simp only []
  rw [hpop, if_pos hcond, List.dropLast_concat, hout, if_neg hfinal]

/-! ### Claim C10: the parser raw-block invariant -/

/-- A successful parse determines the popped block shape and the raw
block text. -/
theorem parse_block_some (bl : List String) (src : String) (k : Nat) (m : Message)
    (h : parse_block bl src k = some m) :
    ∃ first body ts name,
      popTrailingBlanks bl = first :: body ∧
      parse_header first = some (ts, name) ∧
      m.raw_block = pyRstrip (pyJoin "\n" (first :: body)) ++ "\n" ++ DIVIDER ++ "\n" := by
  unfold parse_block at h
  cases hp : popTrailingBlanks bl with
  | nil =>
    rw [hp] at h
    exact absurd h (by simp)
  | cons first body =>
    rw [hp] at h
    simp only [] at h
    cases hh : parse_header first with
    | none =>
      rw [hh] at h
      exact absurd h (by simp)
    | some tn =>
      obtain ⟨ts, name⟩ := tn
      rw [hh] at h
      simp only [] at h
      by_cases he : ts = "" ∨ name = ""
      · rw [if_pos he] at h
        exact absurd h (by simp)
      · rw [if_neg he] at h
        simp only [Option.some.injEq] at h
        exact ⟨first, body, ts, name, rfl, hh, by rw [← h]⟩

/-- A line that parses as a header starts with the opening bracket. -/
theorem parse_header_eats_bracket {line : String} {ts name : String}
    (h : parse_header line = some (ts, name)) :
    ∃ r, line.toList = '[' :: r := by
  unfold parse_header at h
  cases hl : line.toList with
  | nil =>
    rw [hl] at h
    exact absurd h (by simp)
  | cons c0 rest =>
    rw [hl] at h
    simp only [] at h
    by_cases hc : c0 = '['
    · exact ⟨rest, by rw [hc]⟩
    · rw [if_neg hc] at h
      exact absurd h (by simp)

/-- Joining a non-empty line list starts with the first line's text. -/
theorem pyJoin_cons_toList (sep x : String) (body : List String) :
    ∃ t, (pyJoin sep (x :: body)).toList = x.toList ++ t := by
  cases body with
  | nil => exact ⟨[], by simp [pyJoin]⟩
  | cons y ys =>
    refine ⟨(sep ++ pyJoin sep (y :: ys)).toList, ?_⟩
    rw [show pyJoin sep (x :: y :: ys) = x ++ sep ++ pyJoin sep (y :: ys) from rfl]
    simp [toList_append]

/-- Claim C10: every Message produced by the parser has a non-empty
`raw_block` consisting of right-stripped non-empty text, a newline, the
40-dash divider line and a final newline; hence `strip_trailing_divider`
of such a raw block is non-empty and still ends in a newline, and the
report-body writer's forced-newline branch is unreachable for
parser-produced Messages (`blockOut` always emits the selected block
followed by exactly the blank-line newline). -/
theorem c10_raw_block_invariant (bl : List String) (src : String) (k : Nat) (m : Message)
    (h : parse_block bl src k = some m) :
    (∃ s : String, s ≠ "" ∧ pyEndsWith s "\n" = false ∧
        m.raw_block = s ++ "\n" ++ DIVIDER ++ "\n" ∧
        strip_trailing_divider m.raw_block = s ++ "\n") ∧
    m.raw_block ≠ "" ∧
    pyEndsWith m.raw_block "\n" = true ∧
    strip_trailing_divider m.raw_block ≠ "" ∧
    pyEndsWith (strip_trailing_divider m.raw_block) "\n" = true ∧
    (∀ lif i, blockOut lif i m = selectedBlock lif i m ++ "\n") := by
  obtain ⟨first, body, ts, name, hpop, hh, hraw⟩ := parse_block_some bl src k m h
  set s := pyRstrip (pyJoin "\n" (first :: body)) with hs
  obtain ⟨r, hr⟩ := parse_header_eats_bracket hh
  have hbracket : '[' ∈ (pyJoin "\n" (first :: body)).toList := by
    obtain ⟨t, ht⟩ := pyJoin_cons_toList "\n" first body
    rw [ht, hr]
    exact List.mem_append_left _ (List.mem_cons_self _ _)
  have hsne : s ≠ "" := pyRstrip_ne_empty_of_mem hbracket (by decide)
  have hlastc : ∀ c, s.toList.getLast? = some c → pyIsSpace c = false :=
    fun c hc => pyRstrip_getLast_not_space _ c hc
  have hlast_ne_cr : s.toList.getLast? ≠ some '\r' := by
    intro hcr
    have := hlastc '\r' hcr
    exact absurd this (by decide)
  have hstrip : strip_trailing_divider m.raw_block = s ++ "\n" := by
    rw [hraw]
    exact strip_trailing_divider_shape s hlast_ne_cr
  have hs_not_nl : pyEndsWith s "\n" = false := by
    cases hgl : s.toList.getLast? with
    | none =>
      have : s.toList = [] := List.getLast?_eq_none_iff.mp hgl
      exact absurd (string_eq_of_toList this) hsne
    | some c =>
      have hcs := hlastc c hgl
      cases hb : pyEndsWith s "\n" with
      | false => rfl
      | true =>
        have := (pyEndsWith_nl_getLast s).mp hb
        rw [hgl] at this
        simp only [Option.some.injEq] at this
        subst this
        exact absurd hcs (by decide)
  have hraw_nl : pyEndsWith m.raw_block "\n" = true := by
    rw [hraw]
    exact pyEndsWith_append_nl _
  have hraw_ne : m.raw_block ≠ "" := by
    rw [hraw]
    intro he
    have := congrArg String.toList he
    simp [toList_append] at this
  have hstrip_nl : pyEndsWith (strip_trailing_divider m.raw_block) "\n" = true := by
    rw [hstrip]
    exact pyEndsWith_append_nl _
  have hstrip_ne : strip_trailing_divider m.raw_block ≠ "" := by
    rw [hstrip]
    intro he
    have := congrArg String.toList he
    simp [toList_append] at this
  refine ⟨⟨s, hsne, hs_not_nl, hraw, hstrip⟩, hraw_ne, hraw_nl, hstrip_ne, hstrip_nl, ?_⟩
  intro lif i
  unfold blockOut selectedBlock
  simp only []
  by_cases hsel : lif m.source_file = some i
  · simp only [if_pos hsel, if_pos hstrip_nl]
    simp
  · simp only [if_neg hsel, if_pos hraw_nl]
    simp

/-- A concrete parser-produced message for the raw-block invariant. -/
def c10msg : Message :=
  { timestamp := "t", date := "NO_DATE", name := "a", content := none,
    attachments := [], raw_block := "[t] a" ++ "\n" ++ DIVIDER ++ "\n",
    source_file := "f.txt", start_line := 1 }

theorem c10_raw_block_invariant_witness :
    (∃ s : String, s ≠ "" ∧ pyEndsWith s "\n" = false ∧
        c10msg.raw_block = s ++ "\n" ++ DIVIDER ++ "\n" ∧
        strip_trailing_divider c10msg.raw_block = s ++ "\n") ∧
    c10msg.raw_block ≠ "" ∧
    pyEndsWith c10msg.raw_block "\n" = true ∧
    strip_trailing_divider c10msg.raw_block ≠ "" ∧
    pyEndsWith (strip_trailing_divider c10msg.raw_block) "\n" = true ∧
    (∀ lif i, blockOut lif i c10msg = selectedBlock lif i c10msg ++ "\n") :=
  c10_raw_block_invariant ["[t] a"] "f.txt" 1 c10msg (by decide)

/-! ### Round-trip helper lemmas -/

theorem asString_toList (s : String) : s.toList.asString = s := rfl

theorem dropWhile_id {α : Type} (p : α → Bool) (l : List α)
    (h : ∀ a, l.head? = some a → p a = false) : l.dropWhile p = l := by
  cases l with
  | nil => rfl
  | cons a t => rw [List.dropWhile_cons, if_neg (by simp [h a rfl])]

theorem getLast?_of_suffix {α : Type} {R M : List α} (h : R <:+ M) (hne : R ≠ []) :
    R.getLast? = M.getLast? := by
  obtain ⟨t, rfl⟩ := h
  rw [List.getLast?_append]
  cases hR : R.getLast? with
  | none => exact absurd (List.getLast?_eq_none_iff.mp hR) hne
  | some x => simp [hR]

theorem pyStripL_head_false {cs : List Char} {a : Char}
    (h : (pyStripL cs).head? = some a) : pyIsSpace a = false := by
  unfold pyStripL at h
  rw [← List.getLast?_reverse, List.reverse_reverse] at h
  set R := (cs.dropWhile pyIsSpace).reverse.dropWhile pyIsSpace with hR
  have hRne : R ≠ [] := by
    intro he
    rw [he] at h
    simp at h
  have h2 : R.getLast? = ((cs.dropWhile pyIsSpace).reverse).getLast? :=
    getLast?_of_suffix (List.dropWhile_suffix _) hRne
  rw [h2, List.getLast?_reverse] at h
  exact head_dropWhile_false _ _ _ h

theorem pyStripL_getLast_false {cs : List Char} {a : Char}
    (h : (pyStripL cs).getLast? = some a) : pyIsSpace a = false := by
  unfold pyStripL at h
  rw [List.getLast?_reverse] at h
  exact head_dropWhile_false _ _ _ h

theorem pyStripL_idem (cs : List Char) : pyStripL (pyStripL cs) = pyStripL cs := by
  have h1 : (pyStripL cs).dropWhile pyIsSpace = pyStripL cs :=
    dropWhile_id _ _ (fun a ha => pyStripL_head_false ha)
  show ((((pyStripL cs).dropWhile pyIsSpace).reverse.dropWhile pyIsSpace)).reverse = pyStripL cs
  rw [h1]
  have h2 : (pyStripL cs).reverse.dropWhile pyIsSpace = (pyStripL cs).reverse := by
    apply dropWhile_id
    intro a ha
    rw [List.head?_reverse] at ha
    exact pyStripL_getLast_false ha
  rw [h2, List.reverse_reverse]

theorem pyStrip_idem (s : String) : pyStrip (pyStrip s) = pyStrip s := by
  unfold pyStrip
  rw [toList_asString, pyStripL_idem]

theorem norm_text_stripped {v : Option String} {c : String}
    (h : norm_text v = some c) : pyStrip c = c ∧ c ≠ "" := by
  unfold norm_text at h
  cases v with
  | none => exact absurd h (by simp)
  | some s =>
    simp only [] at h
    by_cases he : pyStrip s = ""
    · rw [if_pos he] at h
      exact absurd h (by simp)
    · rw [if_neg he] at h
      simp only [Option.some.injEq] at h
      subst h
      exact ⟨pyStrip_idem s, he⟩

theorem pyStripL_cons_space (c : Char) (hc : pyIsSpace c = true) (l : List Char) :
    pyStripL (c :: l) = pyStripL l := by
  unfold pyStripL
  rw [List.dropWhile_cons, if_pos hc]

theorem takeWhile_append_all {p : Char → Bool} :
    ∀ (A : List Char) (b : Char) (r : List Char),
    (∀ c ∈ A, p c = true) → p b = false →
    (A ++ b :: r).takeWhile p = A ∧ (A ++ b :: r).dropWhile p = b :: r := by
  intro A
  induction A with
  | nil =>
    intro b r _ hb
    constructor
    · rw [List.nil_append, List.takeWhile_cons, if_neg (by simp [hb])]
    · rw [List.nil_append]
      exact dropWhile_id _ _ (fun a ha => by simp at ha; subst ha; exact hb)
  | cons a A ih =>
    intro b r hA hb
    have ha : p a = true := hA a (List.mem_cons_self _ _)
    have hA2 : ∀ c ∈ A, p c = true := fun c hc => hA c (List.mem_cons_of_mem _ hc)
    obtain ⟨ih1, ih2⟩ := ih b r hA2 hb
    constructor
    · rw [List.cons_append, List.takeWhile_cons, if_pos ha, ih1]
    · rw [List.cons_append, List.dropWhile_cons, if_pos ha, ih2]

theorem pyStartsWith_left (p t : String) : pyStartsWith (p ++ t) p = true := by
  simp [pyStartsWith, toList_append, List.take_left]

/-- Strings with no line-break characters. -/
def noBreakStr (s : String) : Prop := ∀ c ∈ s.toList, isLineBreak c = false

instance (s : String) : Decidable (noBreakStr s) := by
  unfold noBreakStr; infer_instance

theorem pyRstripNl_id {s : String} (h : ∀ c ∈ s.toList, c ≠ '\n') : pyRstripNl s = s := by
  unfold pyRstripNl
  rw [dropWhile_id _ _ ?hh, List.reverse_reverse]
  · rfl
  case hh =>
    intro a ha
    rw [List.head?_reverse] at ha
    have : a ∈ s.toList := List.mem_of_mem_getLast? ha
    simp [h a this]

theorem noBreakStr_no_nl {s : String} (h : noBreakStr s) : ∀ c ∈ s.toList, c ≠ '\n' := by
  intro c hc he
  subst he
  exact absurd (h '\n' hc) (by decide)

theorem strTruthy_some {x : Option String} {s : String} (h : strTruthy x = some s) :
    s ≠ "" := by
  cases x with
  | none => exact absurd h (by simp [strTruthy])
  | some t =>
    unfold strTruthy at h
    simp only [] at h
    by_cases ht : t = ""
    · rw [if_pos ht] at h
      exact absurd h (by simp)
    · rw [if_neg ht] at h
      simp only [Option.some.injEq] at h
      subst h
      exact ht

theorem effective_timestamp_ne_empty (msg : MsgRecord) :
    (strTruthy msg.timestamp).getD "NO_TIMESTAMP" ≠ "" := by
  cases h : strTruthy msg.timestamp with
  | none => simp
  | some s =>
    simp only [Option.getD_some]
    exact strTruthy_some h

theorem get_global_name_ne_empty (msg : MsgRecord) : get_global_name msg ≠ "" := by
  unfold get_global_name normalize_name NAME_REPLACEMENTS
  simp only [ENABLE_NAME_REPLACEMENTS, Bool.not_true]
  set author := msg.author.getD ⟨none, none⟩ with hauth
  cases hg : strTruthy author.global_name with
  | some s =>
    have hs := strTruthy_some hg
    by_cases hrep : s = "𓄧" <;> simp [Option.orElse, hg, hrep, hs]
  | none =>
    cases hu : strTruthy author.username with
    | some s =>
      have hs := strTruthy_some hu
      by_cases hrep : s = "𓄧" <;> simp [Option.orElse, hg, hu, hrep, hs]
    | none =>
      simp [Option.orElse, hg, hu]

theorem slAux_nil_acc (acc : List Char) :
    slAux acc [] = if acc.isEmpty then [] else [acc.reverse] := rfl

theorem slAux_cons_nobreak (acc ys : List Char) (c : Char) (hc : isLineBreak c = false) :
    slAux acc (c :: ys) = slAux (c :: acc) ys := by
  have hcr : c ≠ '\r' := fun h => by subst h; exact absurd hc (by decide)
  cases ys with
  | nil => simp only [slAux, if_neg hcr, hc]; simp
  | cons d rest => simp only [slAux, if_neg hcr, hc]; simp

theorem slAux_cons_break (acc ys : List Char) (c : Char)
    (hcr : c ≠ '\r') (hb : isLineBreak c = true) :
    slAux acc (c :: ys) = acc.reverse :: slAux [] ys := by
  cases ys with
  | nil => simp only [slAux, if_neg hcr, hb]; simp [slAux_nil_acc]
  | cons d rest => simp only [slAux, if_neg hcr, hb]; simp

theorem slAux_cons_nl (acc ys : List Char) :
    slAux acc ('\n' :: ys) = acc.reverse :: slAux [] ys :=
  slAux_cons_break acc ys '\n' (by decide) (by decide)

theorem slAux_nobreak_chunk : ∀ (l : List Char), (∀ c ∈ l, isLineBreak c = false) →
    ∀ acc rest, slAux acc (l ++ rest) = slAux (l.reverse ++ acc) rest := by
  intro l
  induction l with
  | nil => intro _ acc rest; simp
  | cons c l ih =>
    intro h acc rest
    rw [List.cons_append, slAux_cons_nobreak _ _ _ (h c (List.mem_cons_self _ _)),
        ih (fun d hd => h d (List.mem_cons_of_mem _ hd)) (c :: acc) rest]
    simp

/-- Splitting the newline-join of non-empty, break-free lines restores
the lines (provided the final line is not empty, which would be eaten
by Python's final-boundary rule). -/
theorem splitlines_join : ∀ (lines : List String),
    lines ≠ [] → (∀ l ∈ lines, noBreakStr l) → lines.getLast? ≠ some "" →
    pySplitlines (pyJoin "\n" lines) = lines := by
  intro lines
  induction lines with
  | nil => intro h; exact absurd rfl h
  | cons x xs ih =>
    intro _ hnb hlast
    cases xs with
    | nil =>
      have hx : x ≠ "" := by
        intro he
        exact hlast (by simp [he])
      unfold pySplitlines
      rw [show pyJoin "\n" [x] = x from rfl]
      rw [show x.toList = x.toList ++ [] from (List.append_nil _).symm,
          slAux_nobreak_chunk x.toList (hnb x (List.mem_cons_self _ _)) [] [],
          slAux_nil_acc]
      rw [if_neg ?hne]
      · simp only [List.append_nil, List.reverse_reverse, List.map_cons, List.map_nil]
        rw [asString_toList]
      case hne =>
        simp only [List.append_nil, List.isEmpty_eq_true, List.reverse_eq_nil_iff]
        intro he
        exact hx (string_eq_of_toList he)
    | cons y ys =>
      have hJ : pyJoin "\n" (x :: y :: ys) = x ++ "\n" ++ pyJoin "\n" (y :: ys) := rfl
      unfold pySplitlines
      rw [hJ]
      have htl : (x ++ "\n" ++ pyJoin "\n" (y :: ys)).toList
          = x.toList ++ ('\n' :: (pyJoin "\n" (y :: ys)).toList) := by
        simp [toList_append]
      rw [htl, slAux_nobreak_chunk x.toList (hnb x (List.mem_cons_self _ _)) [] _,
          slAux_cons_nl]
      simp only [List.append_nil, List.reverse_reverse, List.map_cons]
      have hrest := ih (by simp) (fun l hl => hnb l (List.mem_cons_of_mem _ hl))
        (by rwa [List.getLast?_cons_cons] at hlast)
      unfold pySplitlines at hrest
      rw [hrest, asString_toList]

theorem strAppend_assoc (a b c : String) : (a ++ b) ++ c = a ++ (b ++ c) := by
  apply string_eq_of_toList
  simp [toList_append]

theorem pyJoin_append (sep : String) : ∀ (xs ys : List String), xs ≠ [] → ys ≠ [] →
    pyJoin sep (xs ++ ys) = pyJoin sep xs ++ sep ++ pyJoin sep ys := by
  intro xs
  induction xs with
  | nil => intro ys h _; exact absurd rfl h
  | cons x xs ih =>
    intro ys _ hys
    cases xs with
    | nil =>
      cases ys with
      | nil => exact absurd rfl hys
      | cons y ys2 => rfl
    | cons x2 xs2 =>
      have h1 : pyJoin sep ((x :: x2 :: xs2) ++ ys)
          = x ++ sep ++ pyJoin sep ((x2 :: xs2) ++ ys) := rfl
      rw [h1, ih ys (by simp) hys]
      have h2 : pyJoin sep (x :: x2 :: xs2) = x ++ sep ++ pyJoin sep (x2 :: xs2) := rfl
      rw [h2]
      simp [strAppend_assoc]

theorem pyJoin_glue (sep : String) (cls : List String) (h : cls ≠ []) (Z : List String) :
    pyJoin sep (pyJoin sep cls :: Z) = pyJoin sep (cls ++ Z) := by
  cases Z with
  | nil => simp [pyJoin]
  | cons z zs =>
    have h1 : pyJoin sep (pyJoin sep cls :: z :: zs)
        = pyJoin sep cls ++ sep ++ pyJoin sep (z :: zs) := rfl
    rw [h1, ← pyJoin_append sep cls (z :: zs) h (by simp)]

/-! ### Claim C2: character total vs report body -/

theorem strLength_append (a b : String) : (a ++ b).length = a.length + b.length := by
  show (a ++ b).data.length = a.data.length + b.data.length
  rw [show (a ++ b).data = a.data ++ b.data from rfl, List.length_append]

/-- Under the parser invariant (blocks end in a newline) the text the
writer emits for one block is the selected block plus exactly the
blank-line newline. -/
theorem blockOut_length (lif : String → Option Nat) (i : Nat) (m : Message)
    (h1 : pyEndsWith m.raw_block "\n" = true)
    (h2 : pyEndsWith (strip_trailing_divider m.raw_block) "\n" = true) :
    (blockOut lif i m).length = (selectedBlock lif i m).length + 1 := by
  unfold blockOut selectedBlock
  simp only []
  by_cases hsel : lif m.source_file = some i
  · simp only [if_pos hsel, if_pos h2]
    simp [strLength_append]
    rfl
  · simp only [if_neg hsel, if_pos h1]
    simp [strLength_append]
    rfl

theorem foldl_total_chars (lif : String → Option Nat) :
    ∀ (ps : List (Nat × Message)) (t : Nat),
      ps.foldl (fun total p => total + (selectedBlock lif p.1 p.2).length + 1) t
        = t + (ps.map (fun p => (selectedBlock lif p.1 p.2).length + 1)).sum := by
  intro ps
  induction ps with
  | nil => intro t; simp
  | cons p ps ih =>
    intro t
    rw [List.foldl_cons, ih]
    simp [List.map_cons]
    omega

theorem string_join_length (xs : List String) :
    (String.join xs).length = (xs.map String.length).sum := by
  show (String.join xs).data.length = _
  rw [show (String.join xs).data = (String.join xs).toList from rfl, string_join_toList,
      List.length_flatten, List.map_map]
  rfl

theorem enumFrom_mem {α : Type} :
    ∀ (l : List α) (n : Nat) (p : Nat × α), p ∈ l.enumFrom n → p.2 ∈ l := by
  intro l
  induction l with
  | nil =>
    intro n p hp
    simp [List.enumFrom] at hp
  | cons a l ih =>
    intro n p hp
    rw [List.enumFrom] at hp
    rcases List.mem_cons.mp hp with rfl | hp
    · exact List.mem_cons_self _ _
    · exact List.mem_cons_of_mem _ (ih (n + 1) p hp)

/-- Claim C2: for a matched sequence whose raw blocks satisfy the
parser invariant (every raw block and its divider-stripped form end in
a newline — established for parser output by the C10 analysis), the
character total computed by `compute_total_chars_for_output` equals the
length of the per-block text the report-body writer emits, file-header
banners excluded (`bodyText`, the concatenation of the same `blockOut`
texts the writer interleaves with banners): both computations select
`strip_trailing_divider` for exactly the matches at the last
overall-sequence index of their file group (the shared `selectedBlock`
on the shared `last_index_for_file`), and both account one blank-line
separator character per match. -/
theorem c2_char_total (matched : List Message)
    (h : ∀ m ∈ matched, pyEndsWith m.raw_block "\n" = true ∧
         pyEndsWith (strip_trailing_divider m.raw_block) "\n" = true) :
    compute_total_chars_for_output matched = (bodyText matched).length := by
  unfold compute_total_chars_for_output bodyText
  by_cases hm : matched.isEmpty
  · obtain rfl : matched = [] := List.isEmpty_iff.mp hm
    simp [String.join]
  · simp only [if_neg hm]
    rw [foldl_total_chars, string_join_length, List.map_map]
    simp only [Nat.zero_add]
    apply congrArg
    apply List.map_congr_left
    intro p hp
    have hpm : p.2 ∈ matched := enumFrom_mem matched 0 p hp
    obtain ⟨h1, h2⟩ := h p.2 hpm
    exact (blockOut_length _ p.1 p.2 h1 h2).symm

/-- Two concrete parser-shaped messages in one file. -/
def c2m1 : Message :=
  { timestamp := "t1", date := "NO_DATE", name := "a", content := none,
    attachments := [], raw_block := "[t1] a" ++ "\n" ++ DIVIDER ++ "\n",
    source_file := "f.txt", start_line := 1 }

def c2m2 : Message :=
  { timestamp := "t2", date := "NO_DATE", name := "b", content := none,
    attachments := [], raw_block := "[t2] b" ++ "\n" ++ DIVIDER ++ "\n",
    source_file := "f.txt", start_line := 5 }

theorem c2_char_total_witness :
    compute_total_chars_for_output [c2m1, c2m2] = (bodyText [c2m1, c2m2]).length :=
  c2_char_total [c2m1, c2m2] (by decide)

/-! ### Claim C8: date derivation from the timestamp -/

/-- Claim C8 as stated is false on the code: for the 9-character
timestamp "abcd-xy-z" the characters at offsets 4 and 7 are both `-`,
yet `derive_date_from_timestamp` returns the sentinel `"NO_DATE"`, which
differs from the first 10 characters of the timestamp (the code also
requires the timestamp to be at least 10 characters long). -/
theorem c8_counterexample :
    "abcd-xy-z".toList.getD 4 ' ' = '-' ∧ "abcd-xy-z".toList.getD 7 ' ' = '-' ∧
    derive_date_from_timestamp "abcd-xy-z" = "NO_DATE" ∧
    pyTake "abcd-xy-z" 10 ≠ "NO_DATE" := by decide

/-- Claim C8, amended: for every timestamp string `ts`, the derived date
equals the first 10 characters of `ts` when `ts` has at least 10
characters and the characters at offsets 4 and 7 are `-`, and equals
the sentinel "NO_DATE" otherwise. -/
theorem c8_date_derivation (ts : String) :
    (10 ≤ ts.toList.length ∧ ts.toList.getD 4 ' ' = '-' ∧ ts.toList.getD 7 ' ' = '-' →
      derive_date_from_timestamp ts = pyTake ts 10) ∧
    (¬ (10 ≤ ts.toList.length ∧ ts.toList.getD 4 ' ' = '-' ∧ ts.toList.getD 7 ' ' = '-') →
      derive_date_from_timestamp ts = "NO_DATE") := by
  constructor <;> intro h
  · exact if_pos h
  · exact if_neg h

theorem c8_date_derivation_witness :
    derive_date_from_timestamp "2024-01-02T03:04:05" = pyTake "2024-01-02T03:04:05" 10 ∧
    derive_date_from_timestamp "abc" = "NO_DATE" :=
  ⟨(c8_date_derivation "2024-01-02T03:04:05").1 (by decide),
   (c8_date_derivation "abc").2 (by decide)⟩

/-! ### Claim C5: silent drop of blocks whose header does not parse -/

/-- Claim C5: a raw block whose first line does not match the header
pattern produces no Message (`parse_block` is total, so no error is
possible in the model), and the tokenizer flush for such a block
contributes nothing to the parsed output of its file. -/
theorem c5_header_reject (bl : List String) (src : String) (st : Option Nat)
    (h : parse_header (bl.headD "") = none) :
    (∀ k, parse_block bl src k = none) ∧ flushB src bl st = [] := by
  have hpb : ∀ k, parse_block bl src k = none := by
    intro k
    unfold parse_block
    cases hp : popTrailingBlanks bl with
    | nil => simp
    | cons first body =>
      have hpre : popTrailingBlanks bl <+: bl := popTrailingBlanks_prefix bl
      rw [hp] at hpre
      have hfirst : first = bl.headD "" := by
        simpa using headD_of_prefix hpre (by simp) ""
      rw [hfirst]
      have h2 : parse_header (bl.head?.getD "") = none := by
        cases bl <;> simpa using h
      simp [h2]
  refine ⟨hpb, ?_⟩
  unfold flushB
  cases st with
  | none => rfl
  | some k => simp [hpb k]

theorem c5_header_reject_witness :
    parse_block ["not a header"] "f.txt" 3 = none ∧
    flushB "f.txt" ["not a header"] (some 3) = [] :=
  ⟨(c5_header_reject ["not a header"] "f.txt" (some 3) (by decide)).1 3,
   (c5_header_reject ["not a header"] "f.txt" (some 3) (by decide)).2⟩

/-! ### Claim C3: the filter predicate is the conjunction of its parts -/

/-- Claim C3: a message passes `matches_filters` iff every individually
non-null sub-predicate holds on it — date equality, case-insensitive
name equality, content-pattern search, absence of the case-insensitive
exclude substring in the content, attachment-presence equality, and, for
`attachment_ext`, existence of an attachment whose (already lower-cased)
extension equals the dot-stripped lower-cased filter value; every null
field imposes no constraint. -/
theorem c3_filter_conjunction (m : Message) (f : Filters) :
    matches_filters m f = true ↔
      ((∀ d, f.date = some d → m.date = d) ∧
       (∀ n, f.name = some n → pyLower m.name = pyLower n) ∧
       (∀ p, f.contains_pat = some p →
          matcherSearch p (m.content.getD "") = true) ∧
       (∀ e, f.exclude = some e →
          containsSub (pyLower e) (pyLower (m.content.getD "")) = false) ∧
       (∀ b, f.has_attachment = some b → decide (0 < m.attachments.length) = b) ∧
       (∀ e, f.attachment_ext = some e →
          ∃ a ∈ m.attachments, a.ext = pyLstripDots (pyLower e))) := by
  obtain ⟨fd, fn, fp, fe, fb, fx⟩ := f
  simp only [matches_filters]
  cases fd <;> cases fn <;> cases fp <;> cases fe <;> cases fb <;> cases fx <;>
    simp [List.any_eq_true] <;>
    first
      | tauto
      | (intros; exact List.ne_nil_of_mem (by assumption))

/-! ### Claim C4: content-pattern compilation -/

/-- Claim C4: when the (stripped) content-pattern input is wrapped in a
double-quote pair, the compiled matcher is the exact-token matcher on
the enclosed text — matching case-insensitively exactly at positions
with no adjacent word character (alphanumeric/underscore) on either
side — and otherwise it is the case-insensitive literal-substring
matcher (regex metacharacters are escaped in the source, so the
compiled pattern denotes plain text); in particular the exact-token
pattern "cat" matches "a cat sat" but not "category" or "concatenate",
while the substring pattern cat matches all three. -/
theorem c4_contains_pattern (input : String) :
    (2 ≤ (pyStrip input).toList.length ∧ (pyStrip input).toList.getD 0 ' ' = '"' ∧
        (pyStrip input).toList.getLastD ' ' = '"' →
      (compile_contains_pattern input).2 =
        Matcher.exactToken
          (pyTake (pyDrop (pyStrip input) 1) ((pyStrip input).toList.length - 2))) ∧
    (¬ (2 ≤ (pyStrip input).toList.length ∧ (pyStrip input).toList.getD 0 ' ' = '"' ∧
        (pyStrip input).toList.getLastD ' ' = '"') →
      (compile_contains_pattern input).2 = Matcher.substring (pyStrip input)) ∧
    (∀ tok hay : String,
      matcherSearch (Matcher.exactToken tok) hay = true ↔
        ∃ i, tokenMatchAt tok.toList hay.toList i = true) ∧
    (∀ s hay : String,
      matcherSearch (Matcher.substring s) hay = true ↔
        containsSub (pyLower s) (pyLower hay) = true) ∧
    matcherSearch (compile_contains_pattern "\"cat\"").2 "a cat sat" = true ∧
    matcherSearch (compile_contains_pattern "\"cat\"").2 "category" = false ∧
    matcherSearch (compile_contains_pattern "\"cat\"").2 "concatenate" = false ∧
    matcherSearch (compile_contains_pattern "cat").2 "a cat sat" = true ∧
    matcherSearch (compile_contains_pattern "cat").2 "category" = true ∧
    matcherSearch (compile_contains_pattern "cat").2 "concatenate" = true := by
  refine ⟨?_, ?_, ?_, ?_, by decide, by decide, by decide, by decide, by decide, by decide⟩
  · intro h
    simp only [compile_contains_pattern, if_pos h]
  · intro h
    simp only [compile_contains_pattern, if_neg h]
  · intro tok hay
    simp only [matcherSearch, List.any_eq_true, List.mem_range]
    constructor
    · rintro ⟨i, _, hi⟩
      exact ⟨i, hi⟩
    · rintro ⟨i, hi⟩
      have hb := hi
      simp only [tokenMatchAt, Bool.and_eq_true, decide_eq_true_eq] at hb
      obtain ⟨⟨⟨-, hlen⟩, -⟩, -⟩ := hb
      refine ⟨i, ?_, hi⟩
      omega
  · intro s hay
    simp [matcherSearch]

/-! ### Claim C6: the pre-format sort -/

theorem keyLe_refl (p : Nat × String) : keyLe p p := Or.inr ⟨rfl, le_refl _⟩

theorem keyLe_total (p q : Nat × String) : keyLe p q ∨ keyLe q p := by
  rcases Nat.lt_trichotomy p.1 q.1 with h | h | h
  · exact Or.inl (Or.inl h)
  · rcases le_total p.2.toList q.2.toList with h2 | h2
    · exact Or.inl (Or.inr ⟨h, h2⟩)
    · exact Or.inr (Or.inr ⟨h.symm, h2⟩)
  · exact Or.inr (Or.inl h)

theorem keyLe_trans {p q r : Nat × String} (h1 : keyLe p q) (h2 : keyLe q r) :
    keyLe p r := by
  rcases h1 with h1 | ⟨e1, s1⟩ <;> rcases h2 with h2 | ⟨e2, s2⟩
  · exact Or.inl (h1.trans h2)
  · exact Or.inl (e2 ▸ h1)
  · exact Or.inl (e1 ▸ h2)
  · exact Or.inr ⟨e1.trans e2, s1.trans s2⟩

instance : IsTotal MsgRecord recLe := ⟨fun a b => keyLe_total (sortKey a) (sortKey b)⟩

instance : IsTrans MsgRecord recLe := ⟨fun _ _ _ => keyLe_trans⟩

theorem filter_orderedInsert_pos {α : Type} (le : α → α → Prop) [DecidableRel le]
    (p : α → Bool) (a : α) (hpa : p a = true)
    (hle : ∀ y, p y = true → le a y) (l : List α) :
    (List.orderedInsert le a l).filter p = a :: l.filter p := by
  rw [List.orderedInsert_eq_take_drop, List.filter_append]
  have h1 : (l.takeWhile fun b => ¬ le a b).filter p = [] := by
    rw [List.filter_eq_nil_iff]
    intro y hy
    have h2 : ¬ le a y := by simpa using List.mem_takeWhile_imp hy
    intro hpy
    exact h2 (hle y hpy)
  rw [h1, List.filter_cons_of_pos hpa, List.nil_append]
  congr 1
  conv_rhs =>
    rw [← List.takeWhile_append_dropWhile (p := fun b => decide (¬ le a b)) (l := l)]
  rw [List.filter_append, h1, List.nil_append]

theorem filter_orderedInsert_neg {α : Type} (le : α → α → Prop) [DecidableRel le]
    (p : α → Bool) (a : α) (hpa : p a = false) (l : List α) :
    (List.orderedInsert le a l).filter p = l.filter p := by
  rw [List.orderedInsert_eq_take_drop, List.filter_append,
      List.filter_cons_of_neg (by simp [hpa]),
      ← List.filter_append, List.takeWhile_append_dropWhile]

/-- Stability of insertion sort: filtering to any class of mutually
`le`-comparable elements commutes with sorting. -/
theorem filter_insertionSort {α : Type} (le : α → α → Prop) [DecidableRel le]
    (p : α → Bool) (hle : ∀ x y, p x = true → p y = true → le x y) :
    ∀ l : List α, (List.insertionSort le l).filter p = l.filter p := by
  intro l
  induction l with
  | nil => rfl
  | cons a l ih =>
    rw [List.insertionSort]
    cases hpa : p a with
    | true =>
      rw [filter_orderedInsert_pos le p a hpa (fun y hy => hle a y hpa hy), ih,
          List.filter_cons_of_pos hpa]
    | false =>
      rw [filter_orderedInsert_neg le p a hpa, ih,
          List.filter_cons_of_neg (by simp [hpa])]

/-- A record whose timestamp is present and the empty string. -/
def recEmptyTs : MsgRecord :=
  { timestamp := some "", author := none, content := none, attachments := none }

/-- A record with an ordinary non-empty timestamp string. -/
def recRealTs : MsgRecord :=
  { timestamp := some "2024-01-01", author := none, content := none, attachments := none }

/-- Claim C6 as stated is false on the code: a record whose timestamp
is the empty string — which is a string, so the claim places it among
the string-timestamped records sorted ascending by string comparison —
is keyed by `isinstance(ts, str) and ts` into the missing-timestamp
bucket and sorted after a record whose timestamp is the larger string
"2024-01-01", so the output is not ascending by plain string comparison
of timestamps. -/
theorem c6_counterexample :
    sort_messages_chronological [recEmptyTs, recRealTs] = [recRealTs, recEmptyTs] ∧
    recEmptyTs.timestamp = some "" ∧ recRealTs.timestamp = some "2024-01-01" ∧
    "".toList < "2024-01-01".toList := by
  refine ⟨?_, rfl, rfl, by decide⟩
  decide

/-- Claim C6, amended: the pre-format sort is a permutation of the
input, is ordered by the key `(0, ts)` for records with a present,
non-empty string timestamp and `(1, "9999-…")` otherwise — so records
with a missing, non-string, or empty timestamp come after all others,
and nonempty-timestamp records are ascending by plain string
comparison — and it is stable: records sharing a sort key keep their
original relative order (in particular the untimestamped records do). -/
theorem c6_sort_chronological (data : List MsgRecord) :
    (sort_messages_chronological data).Perm data ∧
    (sort_messages_chronological data).Pairwise recLe ∧
    (∀ k, (sort_messages_chronological data).filter (fun m => decide (sortKey m = k)) =
          data.filter (fun m => decide (sortKey m = k))) := by
  refine ⟨List.perm_insertionSort recLe data, List.sorted_insertionSort recLe data, ?_⟩
  intro k
  refine filter_insertionSort recLe _ ?_ data
  intro x y hx hy
  simp only [decide_eq_true_eq] at hx hy
  unfold recLe
  rw [hx, hy]
  exact keyLe_refl k

/-! ### Claim C9: the per-file summary -/

instance : IsTotal (String × List Nat) groupLe :=
  ⟨fun a b => by
    unfold groupLe
    rcases Nat.lt_trichotomy a.2.length b.2.length with h | h | h
    · exact Or.inr (Or.inl h)
    · rcases le_total (pyLower a.1).toList (pyLower b.1).toList with h2 | h2
      · exact Or.inl (Or.inr ⟨h, h2⟩)
      · exact Or.inr (Or.inr ⟨h.symm, h2⟩)
    · exact Or.inl (Or.inl h)⟩

instance : IsTrans (String × List Nat) groupLe :=
  ⟨fun a b c h1 h2 => by
    unfold groupLe at *
    rcases h1 with h1 | ⟨e1, s1⟩ <;> rcases h2 with h2 | ⟨e2, s2⟩
    · exact Or.inl (h2.trans h1)
    · exact Or.inl (e2 ▸ h1)
    · exact Or.inl (e1 ▸ h2)
    · exact Or.inr ⟨e1.trans e2, s1.trans s2⟩⟩

theorem assocAppend_keys (s : String) (n : Nat) :
    ∀ acc : List (String × List Nat),
      (assocAppend acc s n).map Prod.fst =
        if s ∈ acc.map Prod.fst then acc.map Prod.fst
        else acc.map Prod.fst ++ [s] := by
  intro acc
  induction acc with
  | nil => simp [assocAppend]
  | cons kv rest ih =>
    obtain ⟨k, v⟩ := kv
    by_cases hk : k = s
    · subst hk
      simp [assocAppend]
    · simp only [assocAppend, if_neg hk, List.map_cons, List.mem_cons]
      by_cases hs : s ∈ rest.map Prod.fst
      · simp [hs, ih, Ne.symm hk]
      · simp [hs, ih, Ne.symm hk]

theorem assocAppend_mem (s : String) (n : Nat) :
    ∀ acc : List (String × List Nat), ((acc.map Prod.fst).Nodup) →
    ∀ p : String × List Nat,
    (p ∈ assocAppend acc s n ↔
      (p ∈ acc ∧ p.1 ≠ s) ∨
      (∃ v, (s, v) ∈ acc ∧ p = (s, v ++ [n])) ∨
      (s ∉ acc.map Prod.fst ∧ p = (s, [n]))) := by
  intro acc
  induction acc with
  | nil =>
    intro _ p
    simp [assocAppend]
  | cons kv rest ih =>
    intro hnd p
    obtain ⟨k, v⟩ := kv
    simp only [List.map_cons, List.nodup_cons] at hnd
    obtain ⟨hk_notin, hnd_rest⟩ := hnd
    by_cases hk : k = s
    · subst hk
      have hred : assocAppend ((k, v) :: rest) k n = (k, v ++ [n]) :: rest := by
        simp [assocAppend]
      rw [hred]
      constructor
      · intro hp
        rcases List.mem_cons.mp hp with rfl | hp
        · exact Or.inr (Or.inl ⟨v, List.mem_cons_self _ _, rfl⟩)
        · have hp1 : p.1 ≠ k := fun he =>
            hk_notin (he ▸ List.mem_map_of_mem Prod.fst hp)
          exact Or.inl ⟨List.mem_cons_of_mem _ hp, hp1⟩
      · rintro (⟨hp, hne⟩ | ⟨w, hw, rfl⟩ | ⟨hnot, rfl⟩)
        · rcases List.mem_cons.mp hp with rfl | hp
          · exact absurd rfl hne
          · exact List.mem_cons_of_mem _ hp
        · rcases List.mem_cons.mp hw with hw | hw
          · have hv : w = v := congrArg Prod.snd hw
            rw [hv]
            exact List.mem_cons_self _ _
          · exact absurd (List.mem_map_of_mem Prod.fst hw) hk_notin
        · exact absurd (by simp) hnot
    · simp only [assocAppend, if_neg hk, List.mem_cons, ih hnd_rest p]
      constructor
      · rintro (rfl | h)
        · exact Or.inl ⟨Or.inl rfl, fun he => hk (he : k = s)⟩
        · rcases h with ⟨hp, hne⟩ | ⟨w, hw, rfl⟩ | ⟨hnot, rfl⟩
          · exact Or.inl ⟨Or.inr hp, hne⟩
          · exact Or.inr (Or.inl ⟨w, Or.inr hw, rfl⟩)
          · refine Or.inr (Or.inr ⟨?_, rfl⟩)
            simp only [List.map_cons, List.mem_cons]
            rintro (h | h)
            · exact hk h.symm
            · exact hnot h
      · rintro (⟨hp, hne⟩ | ⟨w, hw, rfl⟩ | ⟨hnot, rfl⟩)
        · rcases hp with rfl | hp
          · exact Or.inl rfl
          · exact Or.inr (Or.inl ⟨hp, hne⟩)
        · rcases hw with hw | hw
          · exact absurd (congrArg Prod.fst hw).symm hk
          · exact Or.inr (Or.inr (Or.inl ⟨w, hw, rfl⟩))
        · simp only [List.map_cons, List.mem_cons] at hnot
          push_neg at hnot
          exact Or.inr (Or.inr (Or.inr ⟨hnot.2, rfl⟩))

/-- The `by_file` grouping dictionary is correct and independent of any
later sorting: its keys are distinct, the entry of file `f` holds
exactly the start lines of the matches from `f` in match order, and a
file with no entry has no matches. -/
theorem by_file_spec (matched : List Message) :
    ((by_file matched).map Prod.fst).Nodup ∧
    (∀ p ∈ by_file matched,
       p.2 = (matched.filter (fun m => m.source_file = p.1)).map Message.start_line) ∧
    (∀ s, s ∉ (by_file matched).map Prod.fst →
       matched.filter (fun m => m.source_file = s) = []) := by
  induction matched using List.reverseRecOn with
  | nil => simp [by_file]
  | append_singleton l m ih =>
    obtain ⟨ih1, ih2, ih3⟩ := ih
    have hstep : by_file (l ++ [m]) =
        assocAppend (by_file l) m.source_file m.start_line := by
      simp [by_file, List.foldl_append]
    refine ⟨?_, ?_, ?_⟩
    · rw [hstep, assocAppend_keys]
      by_cases hs : m.source_file ∈ (by_file l).map Prod.fst
      · simpa [hs] using ih1
      · simp only [if_neg hs]
        simpa [List.nodup_append, hs] using ih1
    · intro p hp
      rw [hstep] at hp
      rw [assocAppend_mem _ _ _ ih1 p] at hp
      rcases hp with ⟨hp, hne⟩ | ⟨w, hw, rfl⟩ | ⟨hnot, rfl⟩
      · rw [List.filter_append, ih2 p hp]
        simp [Ne.symm hne]
      · rw [List.filter_append]
        have := ih2 (m.source_file, w) hw
        simp only at this
        simp [this]
      · rw [List.filter_append, ih3 m.source_file hnot]
        simp
    · intro s hs
      rw [hstep, assocAppend_keys] at hs
      by_cases hm : m.source_file ∈ (by_file l).map Prod.fst
      · rw [if_pos hm] at hs
        have hms : s ≠ m.source_file := fun he => hs (he ▸ hm)
        rw [List.filter_append, ih3 s hs]
        simp [Ne.symm hms]
      · rw [if_neg hm] at hs
        simp only [List.mem_append, List.mem_singleton] at hs
        push_neg at hs
        rw [List.filter_append, ih3 s hs.1]
        simp [Ne.symm hs.2]

/-- Claim C9: the summary groups matches by `source_file` independently
of the sorted order (the grouping holds the start lines of exactly the
matches of that file, in match order); the groups are ordered by
descending match count, then ascending case-insensitive file name; each
group's line is rendered from its start lines sorted ascending,
truncated to the first 20 with a trailing "... (+K more)" suffix when
more than 20 exist, with K the count beyond 20. -/
theorem c9_file_summary (matched : List Message) :
    (summaryItems matched).Pairwise groupLe ∧
    (∀ p ∈ summaryItems matched,
       p.2 = (matched.filter (fun m => m.source_file = p.1)).map Message.start_line) ∧
    (∀ p ∈ summaryItems matched,
       (sortNat p.2).Sorted (· ≤ ·) ∧ (sortNat p.2).Perm p.2 ∧
       (p.2.length ≤ MAX_LINES_LISTED_PER_FILE →
          summaryLine p.1 p.2 = "Found " ++ toString p.2.length ++ " entries in " ++
            p.1 ++ " on lines " ++ renderNums (sortNat p.2)) ∧
       (MAX_LINES_LISTED_PER_FILE < p.2.length →
          summaryLine p.1 p.2 = "Found " ++ toString p.2.length ++ " entries in " ++
            p.1 ++ " on lines " ++ renderNums ((sortNat p.2).take MAX_LINES_LISTED_PER_FILE) ++
            ", ... (+" ++ toString (p.2.length - MAX_LINES_LISTED_PER_FILE) ++ " more)")) ∧
    build_file_summary matched =
      (if (by_file matched).isEmpty then
         pyJoin "\n" ["Per-file summary:", "(No matches.)"]
       else
         pyJoin "\n" ("Per-file summary:" ::
           (summaryItems matched).map (fun kv => summaryLine kv.1 kv.2))) ++ "\n" := by
  have hlen : ∀ nums : List Nat, (sortNat nums).length = nums.length :=
    fun nums => (List.perm_insertionSort _ nums).length_eq
  refine ⟨List.sorted_insertionSort groupLe (by_file matched), ?_, ?_, ?_⟩
  · intro p hp
    have hmem : p ∈ by_file matched :=
      (List.perm_insertionSort groupLe (by_file matched)).mem_iff.mp hp
    exact (by_file_spec matched).2.1 p hmem
  · intro p _
    refine ⟨List.sorted_insertionSort _ p.2, List.perm_insertionSort _ p.2, ?_, ?_⟩
    · intro hle
      unfold summaryLine
      rw [if_pos (by rw [hlen]; exact hle), hlen]
    · intro hgt
      unfold summaryLine
      rw [if_neg (by rw [hlen]; omega), hlen]
  · unfold build_file_summary
    split <;> rfl

/-- A minimal message used in summary examples. -/
def mkSumMsg (file : String) (line : Nat) : Message :=
  { timestamp := "t", date := "NO_DATE", name := "n", content := none,
    attachments := [], raw_block := "r", source_file := file, start_line := line }

/-- 21 matches in b.txt (lines 1-21) followed by one match in a.txt. -/
def ex9 : List Message :=
  (List.range 21).map (fun i => mkSumMsg "b.txt" (i + 1)) ++ [mkSumMsg "a.txt" 5]

/-- The start lines of the b.txt group of `ex9`. -/
def ex9bNums : List Nat := (List.range 21).map (fun i => i + 1)

theorem c9_file_summary_witness :
    ([5] : List Nat) = (ex9.filter (fun m => m.source_file = "a.txt")).map Message.start_line ∧
    summaryLine "a.txt" [5] =
      "Found " ++ toString ([5] : List Nat).length ++ " entries in " ++ "a.txt" ++
        " on lines " ++ renderNums (sortNat [5]) ∧
    summaryLine "b.txt" ex9bNums =
      "Found " ++ toString ex9bNums.length ++ " entries in " ++ "b.txt" ++
        " on lines " ++ renderNums ((sortNat ex9bNums).take MAX_LINES_LISTED_PER_FILE) ++
        ", ... (+" ++ toString (ex9bNums.length - MAX_LINES_LISTED_PER_FILE) ++ " more)" := by
  have h := c9_file_summary ex9
  have hmemA : (("a.txt", [5]) : String × List Nat) ∈ summaryItems ex9 := by decide
  have hmemB : (("b.txt", ex9bNums) : String × List Nat) ∈ summaryItems ex9 := by decide
  exact ⟨h.2.1 ("a.txt", [5]) hmemA,
         (h.2.2.1 ("a.txt", [5]) hmemA).2.2.1 (by decide),
         (h.2.2.1 ("b.txt", ex9bNums) hmemB).2.2.2 (by decide)⟩

/-! ### Claim C7: the Block Tokenizer -/

theorem divider_ne_empty : DIVIDER ≠ "" := by decide

theorem tokLoop_trailing_divider (src d : String) (hd : pyStrip d = DIVIDER) :
    ∀ ls : List String, ∀ idx cur st,
      tokLoop src idx cur st (ls ++ [d]) = tokLoop src idx cur st ls := by
  intro ls
  induction ls with
  | nil =>
    intro idx cur st
    show tokLoop src idx cur st [d] = flushB src cur st
    simp [tokLoop, hd, flushB]
  | cons l ls ih =>
    intro idx cur st
    simp only [List.cons_append, tokLoop]
    by_cases hl : pyStrip l = DIVIDER
    · simp [hl, ih]
    · simp [hl, ih]

theorem tokLoop_blanks (src : String) :
    ∀ blanks : List String, (∀ l ∈ blanks, pyStrip l = "") →
    ∀ idx cur rest, tokLoop src idx cur none (blanks ++ rest) =
      tokLoop src (idx + blanks.length) (cur ++ blanks) none rest := by
  intro blanks
  induction blanks with
  | nil => intro _ idx cur rest; simp
  | cons b bs ih =>
    intro hb idx cur rest
    have hb0 : pyStrip b = "" := hb b (List.mem_cons_self _ _)
    have hbs : ∀ l ∈ bs, pyStrip l = "" := fun l hl => hb l (List.mem_cons_of_mem _ hl)
    simp only [List.cons_append, tokLoop]
    rw [if_neg (by rw [hb0]; exact fun he => divider_ne_empty he.symm)]
    rw [if_neg (by simp [hb0])]
    simp only [List.append_eq]
    rw [ih hbs]
    have harith : idx + 1 + bs.length = idx + (bs.length + 1) := by omega
    rw [harith]
    simp [List.append_assoc]

theorem tokLoop_inblock (src d : String) (hd : pyStrip d = DIVIDER) :
    ∀ ls : List String, (∀ l ∈ ls, pyStrip l ≠ DIVIDER) →
    ∀ idx cur k rest, tokLoop src idx cur (some k) (ls ++ d :: rest) =
      flushB src (cur ++ ls) (some k) ++ tokLoop src (idx + ls.length + 1) [] none rest := by
  intro ls
  induction ls with
  | nil =>
    intro _ idx cur k rest
    simp [tokLoop, hd]
  | cons l ls ih =>
    intro hls idx cur k rest
    have hl : pyStrip l ≠ DIVIDER := hls l (List.mem_cons_self _ _)
    simp only [List.cons_append, tokLoop, if_neg hl]
    rw [if_neg (by simp)]
    simp only [List.append_eq]
    rw [ih (fun x hx => hls x (List.mem_cons_of_mem _ hx))]
    have harith : idx + 1 + ls.length = idx + (ls.length + 1) := by omega
    rw [harith]
    simp [List.append_assoc]

/-- Claim C7: the Block Tokenizer (1) flushes the final candidate at
end-of-input exactly as if a trailing divider line were present, so a
file lacking the final divider still yields its last block; (2) discards
entirely a candidate consisting only of blank lines — no Message, no
line-number record, the loop simply advances past it; (3) splits the
lines on divider lines (lines whose trimmed content equals the 40-dash
divider) and hands each candidate — its leading blank lines plus the
non-blank remainder — to `parse_block` together with the 1-based line
number of its first non-blank line. -/
theorem c7_block_tokenizer (src : String) :
    (∀ d ls, pyStrip d = DIVIDER →
       tokLoop src 1 [] none (ls ++ [d]) = tokLoop src 1 [] none ls) ∧
    (∀ d blanks rest idx, pyStrip d = DIVIDER → (∀ l ∈ blanks, pyStrip l = "") →
       tokLoop src idx [] none (blanks ++ d :: rest) =
         tokLoop src (idx + blanks.length + 1) [] none rest) ∧
    (∀ d blanks bl rest idx, pyStrip d = DIVIDER →
       (∀ l ∈ blanks, pyStrip l = "") →
       (∀ l ∈ bl, pyStrip l ≠ DIVIDER) → bl ≠ [] → pyStrip (bl.headD "") ≠ "" →
       tokLoop src idx [] none (blanks ++ bl ++ d :: rest) =
         (parse_block (blanks ++ bl) src (idx + blanks.length)).toList ++
           tokLoop src (idx + blanks.length + bl.length + 1) [] none rest) := by
  refine ⟨fun d ls hd => tokLoop_trailing_divider src d hd ls 1 [] none, ?_, ?_⟩
  · intro d blanks rest idx hd hb
    rw [tokLoop_blanks src blanks hb idx [] (d :: rest)]
    simp only [List.nil_append, tokLoop, hd, if_pos rfl]
    rw [show flushB src blanks none = [] from rfl]
    simp
  · intro d blanks bl rest idx hd hb hbl hne hh
    obtain ⟨h, t, rfl⟩ : ∃ x xs, bl = x :: xs := by
      cases bl with
      | nil => exact absurd rfl hne
      | cons x xs => exact ⟨x, xs, rfl⟩
    rw [List.append_assoc]
    rw [tokLoop_blanks src blanks hb idx [] _]
    simp only [List.cons_append, tokLoop]
    have hhd : pyStrip h ≠ DIVIDER := hbl h (List.mem_cons_self _ _)
    rw [if_neg hhd]
    have hh2 : pyStrip h ≠ "" := by simpa using hh
    rw [if_pos ⟨trivial, hh2⟩]
    simp only [List.append_eq]
    rw [tokLoop_inblock src d hd t (fun l hl => hbl l (List.mem_cons_of_mem _ hl))]
    have hcur : (([] : List String) ++ blanks) ++ [h] ++ t = blanks ++ h :: t := by
      simp
    have hflush : flushB src ((([] : List String) ++ blanks) ++ [h] ++ t) (some (idx + blanks.length)) =
        (parse_block (blanks ++ h :: t) src (idx + blanks.length)).toList := by
      rw [hcur]
      simp only [flushB]
      rw [if_neg (by simp [List.isEmpty_iff])]
    rw [hflush]
    have harith : idx + blanks.length + 1 + t.length + 1 =
        idx + blanks.length + (h :: t).length + 1 := by
      simp [List.length_cons]
      omega
    rw [harith]

theorem c7_block_tokenizer_witness :
    tokLoop "f.txt" 1 [] none (["[t] a"] ++ [DIVIDER]) =
      tokLoop "f.txt" 1 [] none ["[t] a"] ∧
    tokLoop "f.txt" 1 [] none ([""] ++ DIVIDER :: ["x"]) =
      tokLoop "f.txt" (1 + [""].length + 1) [] none ["x"] ∧
    tokLoop "f.txt" 1 [] none ([""] ++ ["[t] a"] ++ DIVIDER :: []) =
      (parse_block ([""] ++ ["[t] a"]) "f.txt" (1 + [""].length)).toList ++
        tokLoop "f.txt" (1 + [""].length + ["[t] a"].length + 1) [] none [] :=
  ⟨(c7_block_tokenizer "f.txt").1 DIVIDER ["[t] a"] (by decide),
   (c7_block_tokenizer "f.txt").2.1 DIVIDER [""] ["x"] 1 (by decide) (by decide),
   (c7_block_tokenizer "f.txt").2.2 DIVIDER [""] ["[t] a"] [] 1 (by decide) (by decide)
     (by decide) (by decide) (by decide)⟩

theorem c4_contains_pattern_witness :
    (compile_contains_pattern "\"cat\"").2 =
      Matcher.exactToken
        (pyTake (pyDrop (pyStrip "\"cat\"") 1) ((pyStrip "\"cat\"").toList.length - 2)) ∧
    (compile_contains_pattern "cat").2 = Matcher.substring (pyStrip "cat") :=
  ⟨(c4_contains_pattern "\"cat\"").1 (by decide),
   (c4_contains_pattern "cat").2.1 (by decide)⟩

/-! ### Claim C1: the format / parse round trip -/

theorem noBreak_append {a b : String} (ha : noBreakStr a) (hb : noBreakStr b) :
    noBreakStr (a ++ b) := by
  intro c hc
  rw [toList_append] at hc
  rcases List.mem_append.mp hc with h | h
  exacts [ha c h, hb c h]

theorem pyStripL_self_of_strip {s : String} (h : pyStrip s = s) :
    pyStripL s.toList = s.toList := by
  have h2 := congrArg String.toList h
  unfold pyStrip at h2
  rwa [toList_asString] at h2

theorem pyStrip_ne_empty {s : String} {c : Char} {t : List Char}
    (hs : s.toList = c :: t) (hc : pyIsSpace c = false) : pyStrip s ≠ "" := by
  intro he
  have h1 := congrArg String.toList he
  unfold pyStrip at h1
  rw [toList_asString] at h1
  unfold pyStripL at h1
  rw [hs, List.dropWhile_cons, if_neg (by simp [hc])] at h1
  simp only [show ("" : String).toList = [] from rfl, List.reverse_eq_nil_iff] at h1
  rw [List.dropWhile_eq_nil_iff] at h1
  have h2 := h1 c (by simp)
  rw [hc] at h2
  exact absurd h2 (by decide)

theorem popTrailingBlanks_of_all {bl : List String}
    (h : ∀ l ∈ bl, pyStrip l ≠ "") : popTrailingBlanks bl = bl := by
  unfold popTrailingBlanks
  rw [dropWhile_id _ _ ?hh, List.reverse_reverse]
  case hh =>
    intro a ha
    rw [List.head?_reverse] at ha
    have : a ∈ bl := List.mem_of_mem_getLast? ha
    simp [h a this]

/-- The regex accepts the formatter's header: a `[`, a non-empty
bracket-free timestamp, `] `, and a stripped newline-free name. -/
theorem parse_header_format (ts name : String)
    (hts_ne : ts ≠ "") (hts_nb : ']' ∉ ts.toList)
    (hname_ne : name ≠ "") (hname_str : pyStrip name = name)
    (hname_nonl : '\n' ∉ name.toList) :
    parse_header ("[" ++ ts ++ "] " ++ name) = some (ts, name) := by
  have htl : ("[" ++ ts ++ "] " ++ name).toList
      = '[' :: (ts.toList ++ ']' :: ' ' :: name.toList) := by
    simp [toList_append]
  have hkeep : ∀ c ∈ ts.toList, (fun c => decide (c ≠ ']')) c = true := by
    intro c hc
    simp only [decide_eq_true_eq]
    intro he
    subst he
    exact hts_nb hc
  obtain ⟨ht, hd⟩ := takeWhile_append_all ts.toList ']' (' ' :: name.toList) hkeep (by decide)
  unfold parse_header
  rw [htl]
  simp only []
  rw [if_pos trivial, ht, hd]
  simp only []
  rw [if_neg (by simp only [List.isEmpty_eq_true]; intro he; exact hts_ne (string_eq_of_toList he))]
  rw [if_neg (by decide)]
  rw [pyStripL_cons_space ' ' (by decide), pyStripL_self_of_strip hname_str]
  rw [if_neg ?hcore_ne, if_neg ?hcore_nl]
  · rw [asString_toList, asString_toList]
  case hcore_ne =>
    simp only [List.isEmpty_eq_true]
    intro he
    exact hname_ne (string_eq_of_toList he)
  case hcore_nl =>
    simpa using hname_nonl

theorem pyStartsWith_ne_head {s pre : String} {c d : Char} {t u : List Char}
    (hs : s.toList = c :: t) (hp : pre.toList = d :: u) (hne : c ≠ d) :
    pyStartsWith s pre = false := by
  unfold pyStartsWith
  rw [hs, hp]
  simp only [List.length_cons, List.take_succ_cons, decide_eq_false_iff_not]
  intro h
  exact hne (by injection h)

/-- Stripping the tail after an `n`-character keyword whose formatter
puts one space before the payload recovers the stripped payload. -/
theorem strip_after_keyword (pre : String) (n : Nat)
    (hn : n ≤ pre.toList.length) (hpre : pre.toList.drop n = [' '])
    (f : String) (hf : pyStrip f = f) :
    pyStrip (pyDrop (pre ++ f) n) = f := by
  unfold pyDrop
  rw [toList_append, List.drop_append_of_le_length hn, hpre]
  unfold pyStrip
  rw [toList_asString]
  show (pyStripL (' ' :: f.toList)).asString = f
  rw [pyStripL_cons_space ' ' (by decide), pyStripL_self_of_strip hf, asString_toList]

/-- A content line the body scan passes through untouched: break-free,
not blank, and not mistakable for an `Attachment:` or `Proxy:` line. -/
def contentLineOk (l : String) : Prop :=
  noBreakStr l ∧ pyStrip l ≠ "" ∧
  pyStartsWith l "Attachment:" = false ∧ pyStartsWith l "Proxy:" = false

theorem attachment_line_eq (f : String) :
    ("Attachment: " ++ f : String) = "Attachment:" ++ (" " ++ f) := by
  rw [show ("Attachment: " : String) = "Attachment:" ++ " " from by decide, strAppend_assoc]

theorem proxy_line_eq (p : String) :
    ("Proxy: " ++ p : String) = "Proxy:" ++ (" " ++ p) := by
  rw [show ("Proxy: " : String) = "Proxy:" ++ " " from by decide, strAppend_assoc]

/-- The body scan turns the formatter's attachment-line pairs into the
corresponding attachments, with no content lines. -/
theorem parseBody_atts : ∀ (atts : List (String × String)),
    (∀ fp ∈ atts, noBreakStr fp.1 ∧ pyStrip fp.1 = fp.1 ∧
      noBreakStr fp.2 ∧ pyStrip fp.2 = fp.2) →
    parseBody ((atts.map (fun fp => ["Attachment: " ++ fp.1, "Proxy: " ++ fp.2])).flatten)
      = ([], atts.map (fun fp => mkAttachment fp.1 fp.2)) := by
  intro atts
  induction atts with
  | nil => intro _; rfl
  | cons fp rest ih =>
    intro h
    obtain ⟨h1, h2, h3, h4⟩ := h fp (List.mem_cons_self _ _)
    have hrest := ih (fun q hq => h q (List.mem_cons_of_mem _ hq))
    simp only [List.map_cons, List.flatten_cons, List.cons_append, List.nil_append]
    simp only [parseBody]
    rw [pyRstripNl_id (noBreakStr_no_nl (noBreak_append (by decide) h1))]
    rw [pyRstripNl_id (noBreakStr_no_nl (noBreak_append (by decide) h3))]
    rw [if_pos (by rw [attachment_line_eq]; exact pyStartsWith_left _ _)]
    rw [if_pos (by rw [proxy_line_eq]; exact pyStartsWith_left _ _)]
    rw [strip_after_keyword "Attachment: " 11 (by decide) (by decide) fp.1 h2]
    rw [strip_after_keyword "Proxy: " 6 (by decide) (by decide) fp.2 h4]
    rw [hrest]

/-- Content lines pass through the body scan in order, prefixing
whatever the rest of the body yields. -/
theorem parseBody_content_lines : ∀ (cls : List String),
    (∀ l ∈ cls, contentLineOk l) → ∀ Z : List String,
    parseBody (cls ++ Z) = (cls ++ (parseBody Z).1, (parseBody Z).2) := by
  intro cls
  induction cls with
  | nil => intro _ Z; simp
  | cons c cls ih =>
    intro h Z
    obtain ⟨h1, h2, h3, h4⟩ := h c (List.mem_cons_self _ _)
    have htail := ih (fun l hl => h l (List.mem_cons_of_mem _ hl)) Z
    rw [List.cons_append]
    cases hw : cls ++ Z with
    | nil =>
      obtain ⟨hcls, hZ⟩ := List.append_eq_nil.mp hw
      subst hcls hZ
      simp only [parseBody]
      rw [pyRstripNl_id (noBreakStr_no_nl h1)]
      rw [if_neg (by simp [h3]), if_neg (by simp [h4]), if_pos h2]
      simp
    | cons w0 w' =>
      simp only [parseBody]
      rw [pyRstripNl_id (noBreakStr_no_nl h1)]
      rw [if_neg (by simp [h3]), if_neg (by simp [h4]), if_pos h2]
      rw [← hw, htail]
      simp

/-- `parse_block` on a formatter-shaped block: the header parses, no
trailing blank is popped, the body scan separates content lines from
attachment pairs. -/
theorem parse_block_format_core (header ets nm : String) (cls : List String)
    (atts : List (String × String)) (src : String) (k : Nat)
    (hheader : parse_header header = some (ets, nm))
    (hets : ets ≠ "") (hnm : nm ≠ "")
    (hstrip_header : pyStrip header ≠ "")
    (hcls : ∀ l ∈ cls, contentLineOk l)
    (hatts : ∀ fp ∈ atts, noBreakStr fp.1 ∧ pyStrip fp.1 = fp.1 ∧
      noBreakStr fp.2 ∧ pyStrip fp.2 = fp.2) :
    ∃ m : Message,
      parse_block
        (header :: (cls ++
          (atts.map (fun fp => ["Attachment: " ++ fp.1, "Proxy: " ++ fp.2])).flatten))
        src k = some m ∧
      m.timestamp = ets ∧ m.name = nm ∧
      m.content = (if cls.isEmpty then none
                   else if pyStrip (pyJoin "\n" cls) = "" then none
                   else some (pyStrip (pyJoin "\n" cls))) ∧
      m.attachments = atts.map (fun fp => mkAttachment fp.1 fp.2) ∧
      m.source_file = src ∧ m.start_line = k := by
  have hattlines : ∀ l ∈ (atts.map
      (fun fp => ["Attachment: " ++ fp.1, "Proxy: " ++ fp.2])).flatten,
      pyStrip l ≠ "" := by
    intro l hl
    rw [List.mem_flatten] at hl
    obtain ⟨pair, hpair, hlp⟩ := hl
    rw [List.mem_map] at hpair
    obtain ⟨fp, _, rfl⟩ := hpair
    simp only [List.mem_cons, List.mem_singleton] at hlp
    rcases hlp with rfl | rfl | h
    · exact pyStrip_ne_empty (c := 'A') (t := "ttachment: ".toList ++ fp.1.toList)
        (by simp [toList_append]) (by decide)
    · exact pyStrip_ne_empty (c := 'P') (t := "roxy: ".toList ++ fp.2.toList)
        (by simp [toList_append]) (by decide)
    · exact absurd h (List.not_mem_nil l)
  have hpop : popTrailingBlanks
      (header :: (cls ++ (atts.map
        (fun fp => ["Attachment: " ++ fp.1, "Proxy: " ++ fp.2])).flatten))
      = header :: (cls ++ (atts.map
        (fun fp => ["Attachment: " ++ fp.1, "Proxy: " ++ fp.2])).flatten) := by
    apply popTrailingBlanks_of_all
    intro l hl
    rcases List.mem_cons.mp hl with rfl | hl2
    · exact hstrip_header
    · rcases List.mem_append.mp hl2 with h | h
      · exact (hcls l h).2.1
      · exact hattlines l h
  have hbody : parseBody (cls ++ (atts.map
      (fun fp => ["Attachment: " ++ fp.1, "Proxy: " ++ fp.2])).flatten)
      = (cls, atts.map (fun fp => mkAttachment fp.1 fp.2)) := by
    rw [parseBody_content_lines cls hcls, parseBody_atts atts hatts]
    simp
  unfold parse_block
  simp only []
  rw [hpop]
  simp only []
  rw [hheader]
  simp only []
  rw [if_neg (not_or.mpr ⟨hets, hnm⟩), hbody]
  simp only []
  by_cases hce : cls.isEmpty
  · rw [if_pos hce]
    exact ⟨_, rfl, rfl, rfl, by rw [if_pos hce]; simp, rfl, rfl, rfl⟩
  · rw [if_neg hce]
    by_cases hcs : pyStrip (pyJoin "\n" cls) = ""
    · rw [if_pos (by rw [hcs])]
      exact ⟨_, rfl, rfl, rfl, by rw [if_neg hce, if_pos hcs], rfl, rfl, rfl⟩
    · rw [if_neg (by simp [hcs])]
      exact ⟨_, rfl, rfl, rfl, by rw [if_neg hce, if_neg hcs], rfl, rfl, rfl⟩

/-- C1 (amended): formatting a record and parsing the block the Block
Tokenizer hands over (the formatted text's lines without the final
divider line) round-trips the resolved name, the trimmed content and
the kept attachment pairs — provided the effective timestamp is
break-free and bracket-free, the resolved name is break-free and
already stripped, the trimmed content (when present) splits into
break-free, non-blank lines that do not start with `Attachment:` or
`Proxy:`, and the kept attachment fields are break-free and stripped.
(The unconditional claim fails: see the counterexample.) -/
theorem c1_roundtrip (msg : MsgRecord) (src : String) (k : Nat)
    (hts : noBreakStr ((strTruthy msg.timestamp).getD "NO_TIMESTAMP") ∧
      ']' ∉ ((strTruthy msg.timestamp).getD "NO_TIMESTAMP").toList)
    (hname : noBreakStr (get_global_name msg) ∧
      pyStrip (get_global_name msg) = get_global_name msg)
    (hcontent : norm_text msg.content = none ∨
      ∃ cls : List String, cls ≠ [] ∧
        norm_text msg.content = some (pyJoin "\n" cls) ∧ ∀ l ∈ cls, contentLineOk l)
    (hatts : ∀ fp ∈ extract_attachments msg, noBreakStr fp.1 ∧ pyStrip fp.1 = fp.1 ∧
      noBreakStr fp.2 ∧ pyStrip fp.2 = fp.2) :
    ∃ m : Message,
      parse_block ((pySplitlines (format_message msg)).dropLast) src k = some m ∧
      m.name = get_global_name msg ∧
      m.content = norm_text msg.content ∧
      m.attachments.map (fun a => (a.filename, a.proxy_url)) = extract_attachments msg ∧
      m.timestamp = (strTruthy msg.timestamp).getD "NO_TIMESTAMP" ∧
      m.source_file = src ∧ m.start_line = k := by
  have hets_ne : (strTruthy msg.timestamp).getD "NO_TIMESTAMP" ≠ "" :=
    effective_timestamp_ne_empty msg
  have hnm_ne : get_global_name msg ≠ "" := get_global_name_ne_empty msg
  have hheader : parse_header
      ("[" ++ (strTruthy msg.timestamp).getD "NO_TIMESTAMP" ++ "] " ++ get_global_name msg)
      = some ((strTruthy msg.timestamp).getD "NO_TIMESTAMP", get_global_name msg) :=
    parse_header_format _ _ hets_ne hts.2 hnm_ne hname.2
      (fun hmem => absurd (hname.1 '\n' hmem) (by decide))
  have hheader_nb : noBreakStr
      ("[" ++ (strTruthy msg.timestamp).getD "NO_TIMESTAMP" ++ "] " ++ get_global_name msg) :=
    noBreak_append (noBreak_append (noBreak_append (by decide) hts.1) (by decide)) hname.1
  have hstriph : pyStrip
      ("[" ++ (strTruthy msg.timestamp).getD "NO_TIMESTAMP" ++ "] " ++ get_global_name msg)
      ≠ "" :=
    pyStrip_ne_empty (c := '[')
      (t := ((strTruthy msg.timestamp).getD "NO_TIMESTAMP").toList
        ++ ']' :: ' ' :: (get_global_name msg).toList)
      (by simp [toList_append]) (by decide)
  have hattL_nb : ∀ l ∈ ((extract_attachments msg).map
      (fun fp => ["Attachment: " ++ fp.1, "Proxy: " ++ fp.2])).flatten, noBreakStr l := by
    intro l hl
    rw [List.mem_flatten] at hl
    obtain ⟨pair, hpair, hlp⟩ := hl
    rw [List.mem_map] at hpair
    obtain ⟨fp, hfp, rfl⟩ := hpair
    simp only [List.mem_cons, List.mem_singleton] at hlp
    rcases hlp with rfl | rfl | h
    · exact noBreak_append (by decide) (hatts fp hfp).1
    · exact noBreak_append (by decide) (hatts fp hfp).2.2.1
    · exact absurd h (List.not_mem_nil l)
  obtain ⟨cls, hok, hcontent_eq, hcs, hJoin⟩ : ∃ cls : List String,
      (∀ l ∈ cls, contentLineOk l) ∧
      norm_text msg.content
        = (if cls.isEmpty then none else some (pyStrip (pyJoin "\n" cls))) ∧
      (cls.isEmpty = false → pyStrip (pyJoin "\n" cls) ≠ "") ∧
      format_message msg = pyJoin "\n"
        ((("[" ++ (strTruthy msg.timestamp).getD "NO_TIMESTAMP" ++ "] "
            ++ get_global_name msg)
          :: (cls ++ ((extract_attachments msg).map
              (fun fp => ["Attachment: " ++ fp.1, "Proxy: " ++ fp.2])).flatten))
          ++ [DIVIDER]) := by
    rcases hcontent with hn | ⟨cls, hne, hc, hok⟩
    · refine ⟨[], by simp, by simp [hn], by simp, ?_⟩
      have hfl : format_lines msg
          = ("[" ++ (strTruthy msg.timestamp).getD "NO_TIMESTAMP" ++ "] "
              ++ get_global_name msg)
            :: ([] ++ ((extract_attachments msg).map
                (fun fp => ["Attachment: " ++ fp.1, "Proxy: " ++ fp.2])).flatten) := by
        unfold format_lines
        simp [hn]
      unfold format_message
      rw [hfl]
    · obtain ⟨hstr, hne2⟩ := norm_text_stripped hc
      refine ⟨cls, hok, ?_, fun _ => by rw [hstr]; exact hne2, ?_⟩
      · rw [hc, if_neg (by simp [hne]), hstr]
      · have hfl : format_lines msg
            = ("[" ++ (strTruthy msg.timestamp).getD "NO_TIMESTAMP" ++ "] "
                ++ get_global_name msg)
              :: ([pyJoin "\n" cls] ++ ((extract_attachments msg).map
                  (fun fp => ["Attachment: " ++ fp.1, "Proxy: " ++ fp.2])).flatten) := by
          unfold format_lines
          simp [hc]
        unfold format_message
        rw [hfl]
        have e1 : (("[" ++ (strTruthy msg.timestamp).getD "NO_TIMESTAMP" ++ "] "
              ++ get_global_name msg)
            :: ([pyJoin "\n" cls] ++ ((extract_attachments msg).map
                (fun fp => ["Attachment: " ++ fp.1, "Proxy: " ++ fp.2])).flatten))
            ++ [DIVIDER]
            = ["[" ++ (strTruthy msg.timestamp).getD "NO_TIMESTAMP" ++ "] "
                ++ get_global_name msg]
              ++ (pyJoin "\n" cls :: (((extract_attachments msg).map
                  (fun fp => ["Attachment: " ++ fp.1, "Proxy: " ++ fp.2])).flatten
                  ++ [DIVIDER])) := by simp
        have e2 : (("[" ++ (strTruthy msg.timestamp).getD "NO_TIMESTAMP" ++ "] "
              ++ get_global_name msg)
            :: (cls ++ ((extract_attachments msg).map
                (fun fp => ["Attachment: " ++ fp.1, "Proxy: " ++ fp.2])).flatten))
            ++ [DIVIDER]
            = ["[" ++ (strTruthy msg.timestamp).getD "NO_TIMESTAMP" ++ "] "
                ++ get_global_name msg]
              ++ (cls ++ (((extract_attachments msg).map
                  (fun fp => ["Attachment: " ++ fp.1, "Proxy: " ++ fp.2])).flatten
                  ++ [DIVIDER])) := by simp
        rw [e1, e2]
        rw [pyJoin_append "\n" _ _ (by simp) (by simp)]
        rw [pyJoin_append "\n" _ _ (by simp) (by simp [hne])]
        rw [pyJoin_glue "\n" cls hne]
  have hsplit : pySplitlines (format_message msg)
      = (("[" ++ (strTruthy msg.timestamp).getD "NO_TIMESTAMP" ++ "] "
          ++ get_global_name msg)
        :: (cls ++ ((extract_attachments msg).map
            (fun fp => ["Attachment: " ++ fp.1, "Proxy: " ++ fp.2])).flatten))
        ++ [DIVIDER] := by
    rw [hJoin]
    refine splitlines_join _ (by simp) ?_ ?_
    · intro l hl
      rcases List.mem_append.mp hl with h | h
      · rcases List.mem_cons.mp h with rfl | h2
        · exact hheader_nb
        · rcases List.mem_append.mp h2 with h3 | h3
          · exact (hok l h3).1
          · exact hattL_nb l h3
      · rw [List.mem_singleton] at h
        subst h
        decide
    · rw [List.getLast?_concat]
      intro hbad
      simp only [Option.some.injEq] at hbad
      exact absurd hbad.symm (by decide)
  have hdrop : ((("[" ++ (strTruthy msg.timestamp).getD "NO_TIMESTAMP" ++ "] "
        ++ get_global_name msg)
      :: (cls ++ ((extract_attachments msg).map
          (fun fp => ["Attachment: " ++ fp.1, "Proxy: " ++ fp.2])).flatten))
      ++ [DIVIDER]).dropLast
      = ("[" ++ (strTruthy msg.timestamp).getD "NO_TIMESTAMP" ++ "] "
          ++ get_global_name msg)
        :: (cls ++ ((extract_attachments msg).map
            (fun fp => ["Attachment: " ++ fp.1, "Proxy: " ++ fp.2])).flatten) := by
    rw [List.dropLast_concat]
  obtain ⟨m, hm, ht1, hn1, hc1, ha1, hs1, hk1⟩ :=
    parse_block_format_core _ _ _ cls (extract_attachments msg) src k
      hheader hets_ne hnm_ne hstriph hok hatts
  refine ⟨m, ?_, hn1, ?_, ?_, ht1, hs1, hk1⟩
  · rw [hsplit, hdrop]
    exact hm
  · rw [hc1, hcontent_eq]
    cases hce : cls.isEmpty with
    | true => simp
    | false => simp [hcs hce]
  · rw [ha1, List.map_map]
    have hid : ((fun a : Attachment => (a.filename, a.proxy_url))
        ∘ fun fp : String × String => mkAttachment fp.1 fp.2) = id := by
      funext fp
      simp [mkAttachment]
    rw [hid, List.map_id]

instance (l : String) : Decidable (contentLineOk l) := by
  unfold contentLineOk; infer_instance

/-- A record whose content *looks like* an attachment line: the
round trip loses it and invents an attachment instead. -/
def c1bad : MsgRecord :=
  { timestamp := some "t", author := none,
    content := some "Attachment: x", attachments := none }

/-- The unconditional round-trip claim fails: a record whose content is
`Attachment: x` formats to a block that parses back with no content and
a spurious attachment `("x", "")`. -/
theorem c1_counterexample :
    norm_text c1bad.content = some "Attachment: x" ∧
    extract_attachments c1bad = [] ∧
    (parse_block ((pySplitlines (format_message c1bad)).dropLast) "f.txt" 1).map
        (fun m => (m.content, m.attachments.map (fun a => (a.filename, a.proxy_url))))
      = some (none, [("x", "")]) := by
  decide

/-- A well-behaved record for the round-trip theorem. -/
def c1good : MsgRecord :=
  { timestamp := some "2024-01-01T00:00:00",
    author := some ⟨some "Alice", none⟩,
    content := some "hello",
    attachments := some [⟨some "a.png", some "url"⟩] }

theorem c1_roundtrip_witness :
    ∃ m : Message,
      parse_block ((pySplitlines (format_message c1good)).dropLast) "f.txt" 1 = some m ∧
      m.name = get_global_name c1good ∧
      m.content = norm_text c1good.content ∧
      m.attachments.map (fun a => (a.filename, a.proxy_url)) = extract_attachments c1good ∧
      m.timestamp = (strTruthy c1good.timestamp).getD "NO_TIMESTAMP" ∧
      m.source_file = "f.txt" ∧ m.start_line = 1 :=
  c1_roundtrip c1good "f.txt" 1 (by decide) (by decide)
    (Or.inr ⟨["hello"], by decide, by decide, by decide⟩) (by decide)

end DiscordLog
